import Mathlib

/-!
Verification of the me_fs_rs Intel ME firmware parser (Rust) against its
natural-language specification.

The Rust sources are shallowly embedded below.  Machine integers are
modelled as `Nat` with explicit reduction `% 2^w` wherever the Rust code
can overflow; wrapping (release-mode) semantics is used for arithmetic
overflow.  A byte slice is modelled as a function from index to byte
value together with a length (`BSlice`); every slice indexing operation
of the Rust code is modelled by a bounds-checked read, and an
out-of-bounds access (a Rust panic) is a distinguished `crash` outcome.
Fallible operations return values of the four-outcome type `R`:
`ok` (normal result), `err` (a `Result::Err` value; the message strings
are dropped), `crash` (a Rust panic), and `dvg` (out of fuel, modelling
divergence of an unbounded loop or recursion).
-/

/-- Outcome of an embedded fallible Rust computation. -/
inductive R (α : Type) where
  | ok (a : α)
  | err
  | crash
  | dvg
deriving DecidableEq, Repr

namespace R

def bind : R α → (α → R β) → R β
  | .ok a, f => f a
  | .err, _ => .err
  | .crash, _ => .crash
  | .dvg, _ => .dvg

instance : Monad R where
  pure := R.ok
  bind := R.bind

def isOk : R α → Bool
  | .ok _ => true
  | _ => false

end R

/-- A borrowed byte slice: an index-to-byte function plus a length.
Only indices below `len` are meaningful; reads reduce the stored value
`% 256` so that every byte is in `0..256`. -/
structure BSlice where
  fn : Nat → Nat
  len : Nat

namespace BSlice

/-- The byte stored at index `i` (unchecked; callers bound-check). -/
def byteAt (s : BSlice) (i : Nat) : Nat := s.fn i % 256

/-- Bounds-checked `u8` read, little-endian like all reads here. -/
def readU8 (s : BSlice) (o : Nat) : Option Nat :=
  if o + 1 ≤ s.len then some (s.byteAt o) else none

/-- Bounds-checked little-endian `u16` read. -/
def readU16 (s : BSlice) (o : Nat) : Option Nat :=
  if o + 2 ≤ s.len then some (s.byteAt o + 256 * s.byteAt (o + 1)) else none

/-- Bounds-checked little-endian `u32` read. -/
def readU32 (s : BSlice) (o : Nat) : Option Nat :=
  if o + 4 ≤ s.len then
    some (s.byteAt o + 256 * s.byteAt (o + 1) + 65536 * s.byteAt (o + 2) +
      16777216 * s.byteAt (o + 3))
  else none

/-- Bounds-checked little-endian `u64` read. -/
def readU64 (s : BSlice) (o : Nat) : Option Nat :=
  if o + 8 ≤ s.len then
    some (List.foldr (fun i acc => s.byteAt (o + i) + 256 * acc) 0
      (List.range 8))
  else none

/-- Rust `&data[o..o+n]`: panics (here: `none`) when out of bounds. -/
def sliceAt (s : BSlice) (o n : Nat) : Option BSlice :=
  if o + n ≤ s.len then some ⟨fun j => s.fn (o + j), n⟩ else none

/-- Rust `&data[o..]`: panics (here: `none`) when `o > len`. -/
def sliceFrom (s : BSlice) (o : Nat) : Option BSlice :=
  if o ≤ s.len then some ⟨fun j => s.fn (o + j), s.len - o⟩ else none

/-- The `n` bytes starting at `o`, as a list (unchecked). -/
def bytesAt (s : BSlice) (o n : Nat) : List Nat :=
  (List.range n).map fun j => s.byteAt (o + j)

end BSlice

/-- Association-list rendering of the Rust `BTreeMap<u16, Chunk>`:
`insertA` replaces the value of an existing key and otherwise appends. -/
def lookupA {β : Type} : List (Nat × β) → Nat → Option β
  | [], _ => none
  | p :: t, k => if p.1 = k then some p.2 else lookupA t k

def containsKeyA {β : Type} (m : List (Nat × β)) (k : Nat) : Bool :=
  (lookupA m k).isSome

def insertA {β : Type} : List (Nat × β) → Nat → β → List (Nat × β)
  | [], k, v => [(k, v)]
  | p :: t, k, v => if p.1 = k then (k, v) :: t else p :: insertA t k v

/-- Big-endian `u32` from four bytes, as in `u32::from_be_bytes(name)`. -/
def be32 (b : List Nat) : Nat :=
  match b with
  | [a, b, c, d] => ((a * 256 + b) * 256 + c) * 256 + d
  | _ => 0

/-! ## CRC-16 routines (src/mfs.rs, `crc_table`, `crc_idx`, `CCITT`) -/

/-- One shift step of the CCITT table construction: `r = (r << 1) ^ poly`
with `poly = 0x1021` when bit 15 of `r` is set.  The Rust code works in
`usize` and never overflows within eight steps, so no reduction here. -/
def crcTabStep (r : Nat) : Nat :=
  if r &&& 0x8000 ≠ 0 then (r <<< 1) ^^^ 0x1021 else r <<< 1

/-- `crc_table()[i]`: eight shift steps from `i << 8`, truncated `as u16`. -/
def crc_table (i : Nat) : Nat :=
  (crcTabStep (crcTabStep (crcTabStep (crcTabStep (crcTabStep (crcTabStep
    (crcTabStep (crcTabStep (i <<< 8))))))))) % 65536

/-- One byte of the `crc_idx` accumulation:
`i = (b ^ (crc >> 8)) as u8; crc = (tab[i] ^ (crc << 8)) & 0x3fff`
(the shift `crc << 8` is done in `u16` and truncates). -/
def crcIdxByte (crc b : Nat) : Nat :=
  (crc_table ((b ^^^ (crc >>> 8)) % 256) ^^^ ((crc <<< 8) % 65536)) &&& 0x3fff

/-- `crc_idx(v)`: the index-derivation CRC variant, init `0x3fff`,
fed the two bytes of `v` low byte first, masked to 14 bits per byte. -/
def crc_idx (v : Nat) : Nat :=
  crcIdxByte (crcIdxByte 0x3fff (v % 256)) ((v >>> 8) % 256)

/-- One input byte of the standard CRC-16/CCITT (IBM 3740) update. -/
def ccittByte (crc b : Nat) : Nat :=
  let c0 := (crc ^^^ (b <<< 8)) % 65536
  (crcTabStep (crcTabStep (crcTabStep (crcTabStep (crcTabStep (crcTabStep
    (crcTabStep (crcTabStep c0)))))))) % 65536

/-- `CCITT.checksum(data)`: CRC-16/CCITT with init `0xffff`, polynomial
`0x1021`, no reflection, no final xor (the `crc` crate's
`CRC_16_IBM_3740` used by src/mfs.rs). -/
def ccitt (data : List Nat) : Nat :=
  data.foldl ccittByte 0xffff

/-! ## Partition-name classification (src/fpt.rs, `get_part_info`) -/

/-- The partition type table of src/fpt.rs. -/
inductive PartitionType where
  | Code
  | Data
  | NoType
deriving DecidableEq, Repr

/-- `get_part_info(n)`: classification and long name by (NUL-trimmed)
partition name.  The Rust `match` on string literals is rendered as the
equivalent chain of equality tests, in source order. -/
def get_part_info (n : String) : PartitionType × String :=
  if n = "FTPR" then (.Code, "Main code partition")
  else if n = "FTUP" then (.Code, "[NFTP]+[WCOD]+[LOCL]")
  else if n = "DLMP" then (.Code, "IDLM partition")
  else if n = "PSVN" then (.Data, "Secure Version Number")
  else if n = "IVBP" then (.Data, "IV + Bring Up cache")
  else if n = "MFS" then (.Data, "ME Flash File System")
  else if n = "NFTP" then (.Code, "Additional code")
  else if n = "ROMB" then (.Code, "ROM Bypass")
  else if n = "WCOD" then (.Code, "WLAN uCode")
  else if n = "LOCL" then (.Code, "AMT Localization")
  else if n = "FLOG" then (.Data, "Flash Log")
  else if n = "UTOK" then (.Data, "Debug Unlock Token")
  else if n = "ISHC" then (.Code, "Integrated Sensors Hub")
  else if n = "AFSP" then (.NoType, "8778 55aa signature like MFS")
  else if n = "FTPM" then (.Code, "Firmware TPM (unconfirmed)")
  else if n = "GLUT" then (.Data, "Huffman Look-Up Table")
  else if n = "EFFS" then (.Data, "EFFS File System")
  else if n = "FOVD" then (.Data, "FOVD...")
  else (.NoType, "[> UNKNOWN <]")

/-- The names that `get_part_info` distinguishes from the fallback. -/
def knownPartNames : List String :=
  ["FTPR", "FTUP", "DLMP", "PSVN", "IVBP", "MFS", "NFTP", "ROMB", "WCOD",
   "LOCL", "FLOG", "UTOK", "ISHC", "AFSP", "FTPM", "GLUT", "EFFS", "FOVD"]

/-! ## FIT decoder (src/fit.rs) -/

/-- Little-endian value of `n` bytes at offset `o` (unchecked). -/
def BSlice.leAt (s : BSlice) (o n : Nat) : Nat :=
  (List.range n).foldr (fun i acc => s.byteAt (o + i) + 256 * acc) 0

/-- The FIT entry types of src/fit.rs (`enum EntryType`). -/
inductive EntryType where
  | Header
  | MicrocodeUpdate
  | StartupACM
  | DiagnosticACM
  | BIOSStartupModule
  | TPMPolicyRecord
  | BIOSPolicyRecord
  | TXTPolicyRecord
  | KeyManifestRecord
  | BootPolicyManifest
  | CSESecureBoot
  | FeaturePolicyDeliveryRecord
  | IntelReserved
  | JMPDebugPolicy
  | UnusedEntry
deriving DecidableEq, Repr

/-- `EntryType::try_from(v)`: the match arms of src/fit.rs in source
order, with range patterns rendered as interval tests. -/
def entryTypeTryFrom (v : Nat) : Except String EntryType :=
  if v = 0x00 then .ok .Header
  else if v = 0x01 then .ok .MicrocodeUpdate
  else if v = 0x02 then .ok .StartupACM
  else if v = 0x03 then .ok .DiagnosticACM
  else if 0x04 ≤ v ∧ v ≤ 0x06 then .error "Intel Reserved"
  else if v = 0x07 then .ok .BIOSStartupModule
  else if v = 0x08 then .ok .TPMPolicyRecord
  else if v = 0x09 then .ok .BIOSPolicyRecord
  else if v = 0x0A then .ok .TXTPolicyRecord
  else if v = 0x0B then .ok .KeyManifestRecord
  else if v = 0x0C then .ok .BootPolicyManifest
  else if 0x0D ≤ v ∧ v ≤ 0x0F then .error "Intel Reserved"
  else if v = 0x10 then .ok .CSESecureBoot
  else if 0x11 ≤ v ∧ v ≤ 0x2C then .error "Intel Reserved"
  else if v = 0x2D then .ok .FeaturePolicyDeliveryRecord
  else if v = 0x2E then .error "Intel Reserved"
  else if v = 0x2F then .ok .JMPDebugPolicy
  else if 0x30 ≤ v ∧ v ≤ 0x70 then
    .error "Reserved for Platform Manufacturer Use"
  else if 0x71 ≤ v ∧ v ≤ 0x7E then .error "Intel Reserved"
  else if v = 0x7F then .error "Unused Entry"
  else .error "unknown FIT entry type"

/-- `struct FitHeader` (16 bytes, packed). -/
structure FitHeader where
  magic : List Nat
  entries : Nat
  version : Nat
  checksum_valid_and_type : Nat
  checksum : Nat
deriving DecidableEq, Repr

/-- `struct FitEntry` (16 bytes, packed). -/
structure FitEntry where
  addr : Nat
  size3 : List Nat
  b11 : Nat
  version : Nat
  checksum_valid_and_type : Nat
  checksum : Nat
deriving DecidableEq, Repr

/-- `FitEntry::get_type`: decode the type from
`checksum_valid_and_type & 0xef` — note the mask in the source is
`0xef`, not `0x7f`. -/
def FitEntry.get_type (e : FitEntry) : Except String EntryType :=
  entryTypeTryFrom (e.checksum_valid_and_type &&& 0xef)

/-- `FitEntry::is_checksum_valid`: bit 7 of the type byte. -/
def FitEntry.is_checksum_valid (e : FitEntry) : Bool :=
  e.checksum_valid_and_type &&& 0x80 > 0

/-- `struct Fit`. -/
structure Fit where
  header : FitHeader
  entries : List FitEntry
  mapping : Nat
  offset : Nat
deriving DecidableEq, Repr

/-- `get_mapping(size)`: flash-size mask (8 MiB, 16 MiB, fallback). -/
def get_mapping (size : Nat) : Nat :=
  if size = 8 * 1024 * 1024 then 0x007fffff
  else if size = 16 * 1024 * 1024 then 0x00ffffff
  else 0x00ffffff

/-- `FitHeader::read_from_prefix`: `None` if fewer than 16 bytes. -/
def readFitHeader (s : BSlice) : Option FitHeader :=
  if 16 ≤ s.len then
    some ⟨s.bytesAt 0 8, s.leAt 8 4, s.leAt 12 2, s.byteAt 14, s.byteAt 15⟩
  else none

/-- One 16-byte `FitEntry` record at index `i` of an entry array
(bounds established by the caller). -/
def readFitEntryAt (s : BSlice) (i : Nat) : FitEntry :=
  let o := i * 16
  ⟨s.leAt o 8, s.bytesAt (o + 8) 3, s.byteAt (o + 11), s.leAt (o + 12) 2,
    s.byteAt (o + 14), s.byteAt (o + 15)⟩

/-- `Fit::new(data)`.  `data.len() - 0x40` is `usize` arithmetic and
wraps on underflow (release semantics); the subsequent 4-byte slice is
then out of bounds and panics, which the model reports as `crash`. -/
def Fit.new (data : BSlice) : R Fit :=
  let fitp_pos := (data.len + (2 ^ 64 - 0x40)) % 2 ^ 64
  match data.sliceAt fitp_pos 4 with
  | none => .crash
  | some fitp =>
    let mapping := get_mapping data.len
    match fitp.readU32 0 with
    | none => .err
    | some fp =>
      if fp = 0xffffffff then .err
      else
        let offset := mapping &&& fp
        if offset % 0x10 ≠ 0 then .err
        else
          match data.sliceFrom offset with
          | none => .crash
          | some hs =>
            match readFitHeader hs with
            | none => .err
            | some header =>
              let count := (header.entries + (2 ^ 32 - 1)) % 2 ^ 32
              match data.sliceFrom (offset + 16) with
              | none => .crash
              | some es =>
                if count * 16 ≤ es.len then
                  .ok ⟨header, (List.range count).map (readFitEntryAt es),
                    mapping, offset⟩
                else .err

/-! ## MFS Gen 3 pages and chunks (src/mfs.rs) -/

/-- `GEN3_PAGE_MAGIC`. -/
def GEN3_PAGE_MAGIC : Nat := 0xaa557887

/-- `GEN3_PAGE_SIZE` (8 KiB). -/
def GEN3_PAGE_SIZE : Nat := 0x2000

/-- `struct Chunk`: 64 payload bytes and a 16-bit stored CRC. -/
structure Chunk where
  data : List Nat
  crc16 : Nat
deriving DecidableEq, Repr

/-- `type Chunks = BTreeMap<u16, Chunk>` as an association list. -/
abbrev Chunks : Type := List (Nat × Chunk)

/-- `Chunk::read_from_prefix` of the 66 bytes at `coff` (bounds checked
like the Rust slice `&data[coff..coff + CHUNK_SIZE]`). -/
def readChunk (s : BSlice) (coff : Nat) : Option Chunk :=
  if coff + 66 ≤ s.len then
    some ⟨s.bytesAt coff 64, s.leAt (coff + 64) 2⟩
  else none

/-- `struct PageHeader` (20 bytes with trailing padding). -/
structure PageHeader where
  magic4 : List Nat
  usn : Nat
  n_erase : Nat
  i_next_erase : Nat
  first_chunk : Nat
  checksum : Nat
  b0 : Nat
deriving DecidableEq, Repr

/-- `PageHeader::read_from_prefix`. -/
def readPageHeader (s : BSlice) : Option PageHeader :=
  if 20 ≤ s.len then
    some ⟨s.bytesAt 0 4, s.leAt 4 4, s.leAt 8 4, s.leAt 12 2, s.leAt 14 2,
      s.byteAt 16, s.byteAt 17⟩
  else none

/-- Loop body state of `parse_data_chunks`: chunk map and free count.
Iterates the 122 one-byte slots at offset 18; slot `0xff` is free,
otherwise the chunk at `DATA_CHUNKS_OFFSET + pos * CHUNK_SIZE` is
inserted under index `first_chunk + pos` (`u16` addition). -/
def parse_data_chunks_go (data : BSlice) (fc : Nat) :
    List Nat → Chunks × Nat → Option (Chunks × Nat)
  | [], st => some st
  | pos :: rest, (chunks, free) =>
    match data.readU8 (18 + pos) with
    | none => none
    | some s =>
      if s = 0xff then parse_data_chunks_go data fc rest (chunks, free + 1)
      else
        match readChunk data (140 + pos * 66) with
        | none => none
        | some c =>
          parse_data_chunks_go data fc rest
            (insertA chunks ((fc + pos) % 65536) c, free)

/-- `parse_data_chunks(data, first_chunk)`.  The Rust function has no
error return; the `Option` records only the `unwrap`ed reads, which are
always in bounds on an 8 KiB page. -/
def parse_data_chunks (data : BSlice) (fc : Nat) : Option (Chunks × Nat) :=
  parse_data_chunks_go data fc (List.range 122) ([], 0)

/-- Loop of `parse_sys_chunks`: two-byte slots at offset 18, sentinel
`0xffff` = free, `0x7fff` = end of list; otherwise read the chunk at
`SYS_CHUNKS_OFFSET + pos * CHUNK_SIZE`, update the running derived
index `idx ← crc_idx(idx) ^ slot`, and verify the CCITT checksum of
the payload plus the little-endian derived index. -/
def parse_sys_chunks_go (data : BSlice) :
    List Nat → Chunks → Nat → Nat → Nat → R (Chunks × Nat × Nat)
  | [], chunks, free, dups, _ => .ok (chunks, free, dups)
  | pos :: rest, chunks, free, dups, idx =>
    match data.readU16 (18 + 2 * pos) with
    | none => .crash
    | some slot =>
      if slot = 0xffff then
        parse_sys_chunks_go data rest chunks (free + 1) dups idx
      else if slot = 0x7fff then .ok (chunks, free + (120 - pos), dups)
      else
        match readChunk data (260 + pos * 66) with
        | none => .crash
        | some c =>
          let idx' := crc_idx idx ^^^ slot
          let cs := ccitt (c.data ++ [idx' % 256, (idx' >>> 8) % 256])
          if cs ≠ c.crc16 then .err
          else
            let dups' := if containsKeyA chunks idx' then dups + 1 else dups
            parse_sys_chunks_go data rest (insertA chunks idx' c) free dups'
              idx'

/-- `parse_sys_chunks(data)`: chunk map, free count, duplicate count. -/
def parse_sys_chunks (data : BSlice) : R (Chunks × Nat × Nat) :=
  parse_sys_chunks_go data (List.range 121) [] 0 0 0

/-! ## MFS Gen 3 file reconstruction (src/mfs.rs, `get_file`) -/

/-- The FAT-chain loop of `get_file`.  `fuel` bounds the number of
iterations (the Rust loop is unbounded); exhaustion is `dvg`.  The
result carries the reconstructed bytes and the tail length (the final
FAT value, i.e. the number of bytes taken from the last chunk).
`u16` arithmetic for the chunk index wraps modulo 2^16. -/
def get_file_go (chunks : Chunks) (n_sys_chunks : Nat) (fat : List Nat)
    (n_files : Nat) : Nat → Nat → List Nat → R (List Nat × Nat)
  | 0, _, _ => .dvg
  | fuel + 1, i_node, acc =>
    if i_node < n_files then .err
    else
      let ci := ((i_node + n_sys_chunks) % 65536 + 65536 - n_files % 65536)
        % 65536
      match lookupA chunks ci with
      | none => .crash
      | some c =>
        if i_node < fat.length then
          let nxt := fat.getD i_node 0
          if 0 < nxt ∧ nxt ≤ 66 then
            if nxt ≤ c.data.length then .ok (acc ++ c.data.take nxt, nxt)
            else .crash
          else get_file_go chunks n_sys_chunks fat n_files fuel nxt
            (acc ++ c.data)
        else .crash

/-- `get_file(chunks, n_sys_chunks, fat, n_files, file_index)`: look up
the inode head, reject the `0xffff` (empty) and `0x0000` (no file)
sentinels, then follow the FAT chain. -/
def get_file (chunks : Chunks) (n_sys_chunks : Nat) (fat : List Nat)
    (n_files : Nat) (file_index : Nat) (fuel : Nat) : R (List Nat × Nat) :=
  if file_index < fat.length then
    let i_node := fat.getD file_index 0
    if i_node = 0xffff then .err
    else if i_node = 0 then .err
    else get_file_go chunks n_sys_chunks fat n_files fuel i_node []
  else .crash

/-- An all-zero 8 KiB page (every slot byte is `0x00`, i.e. in use). -/
def c9page : BSlice := ⟨fun _ => 0, 8192⟩

/-! ## C4: a two-chunk file with tail marker 0x0020 -/

/-- Chunk with 64 payload bytes of value 1. -/
def c4c0 : Chunk := ⟨List.replicate 64 1, 0⟩

/-- Chunk with 64 payload bytes of value 2. -/
def c4c1 : Chunk := ⟨List.replicate 64 2, 0⟩

/-- Chunk map with `c4c0` at index 70 and `c4c1` at index 80. -/
def c4chunks : Chunks := [(70, c4c0), (80, c4c1)]

/-- A 100-entry FAT: `fat[0] = 70` (inode head), `fat[70] = 80`,
`fat[80] = 0x20`; zero elsewhere. -/
def c4fat : List Nat :=
  (List.range 100).map fun i =>
    if i = 0 then 70 else if i = 70 then 80 else if i = 80 then 0x20 else 0

/-! ## MFS Gen 3 volume parsing (src/mfs.rs, `parse_gen3`) -/

/-- `struct SysPage`. -/
structure SysPage where
  offset : Nat
  header : PageHeader
  chunks : Chunks
deriving DecidableEq, Repr

/-- `struct DataPage`. -/
structure DataPage where
  offset : Nat
  header : PageHeader
  chunks : Chunks
deriving DecidableEq, Repr

/-- The page positions visited by `for pos in (0..size).step_by(0x2000)`. -/
def pagePositions (size : Nat) : List Nat :=
  (List.range ((size + 0x2000 - 1) / 0x2000)).map (· * 0x2000)

/-- Page classification loop of `parse_gen3`: slice each 8 KiB page,
check the magic, parse data or system chunks, and track the single
allowed blank page (`blank ≠ 0` on a second blank page is an error —
note a blank page at offset 0 leaves the tracker at its initial 0). -/
def classify_pages (data : BSlice) :
    List Nat → List SysPage × List DataPage × Nat →
    R (List SysPage × List DataPage × Nat)
  | [], st => .ok st
  | pos :: rest, (sys, dps, blank) =>
    match data.sliceAt pos 0x2000 with
    | none => .crash
    | some page =>
      match page.readU32 0 with
      | none => .crash
      | some m =>
        if m = GEN3_PAGE_MAGIC then
          match readPageHeader page with
          | none => .crash
          | some header =>
            if header.first_chunk > 0 then
              match parse_data_chunks page header.first_chunk with
              | none => .crash
              | some (chunks, _free) =>
                classify_pages data rest
                  (sys, dps ++ [⟨pos, header, chunks⟩], blank)
            else
              match parse_sys_chunks page with
              | .ok (chunks, _free, _dups) =>
                classify_pages data rest
                  (sys ++ [⟨pos, header, chunks⟩], dps, blank)
              | .err => .err
              | .crash => .crash
              | .dvg => .dvg
        else
          if blank ≠ 0 then .err
          else classify_pages data rest (sys, dps, pos)

/-- Stable insertion into a list sorted by `key` (after equal keys);
models Rust's stable `sort_by_key`. -/
def insertSorted {α : Type} (key : α → Nat) (x : α) : List α → List α
  | [] => [x]
  | y :: ys =>
    if key y ≤ key x then y :: insertSorted key x ys else x :: y :: ys

/-- `sort_by_key` as stable insertion sort. -/
def sortByKey {α : Type} (key : α → Nat) (l : List α) : List α :=
  l.foldl (fun acc x => insertSorted key x acc) []

/-- System-chunk merge: every system chunk index must be below
`n_sys_chunks`, later pages (higher USN) overwrite earlier ones. -/
def insert_sys_chunks (n_sys_chunks : Nat) :
    List (Nat × Chunk) → Chunks → R Chunks
  | [], acc => .ok acc
  | (i, c) :: rest, acc =>
    if i ≥ n_sys_chunks then .err
    else insert_sys_chunks n_sys_chunks rest (insertA acc i c)

def insert_sys_pages (n_sys_chunks : Nat) :
    List SysPage → Chunks → R Chunks
  | [], acc => .ok acc
  | p :: rest, acc =>
    match insert_sys_chunks n_sys_chunks p.chunks acc with
    | .ok acc' => insert_sys_pages n_sys_chunks rest acc'
    | .err => .err
    | .crash => .crash
    | .dvg => .dvg

/-- Data-chunk merge: a chunk index already present is an error. -/
def insert_data_chunks : List (Nat × Chunk) → Chunks → R Chunks
  | [], acc => .ok acc
  | (ci, c) :: rest, acc =>
    if containsKeyA acc ci then .err
    else insert_data_chunks rest (insertA acc ci c)

/-- Data-page merge at position `pi` (after sorting by first chunk):
`first_chunk` must equal `n_sys_chunks + pi * 122`. -/
def insert_data_pages (n_sys_chunks : Nat) :
    Nat → List DataPage → Chunks → R Chunks
  | _, [], acc => .ok acc
  | pi, p :: rest, acc =>
    if p.header.first_chunk ≠ n_sys_chunks + pi * 122 then .err
    else
      match insert_data_chunks p.chunks acc with
      | .ok acc' => insert_data_pages n_sys_chunks (pi + 1) rest acc'
      | .err => .err
      | .crash => .crash
      | .dvg => .dvg

/-- Little-endian value of `n` bytes at offset `o` of a byte list. -/
def listLE (l : List Nat) (o n : Nat) : Nat :=
  (List.range n).foldr (fun i acc => l.getD (o + i) 0 % 256 + 256 * acc) 0

/-- `struct VolHeader` (14 packed bytes), read from chunk 0's payload. -/
structure VolHeader where
  magic : Nat
  version : Nat
  chunk_bytes_total : Nat
  files : Nat
deriving DecidableEq, Repr

def readVolHeader (c0 : List Nat) : VolHeader :=
  ⟨listLE c0 0 4, listLE c0 4 4, listLE c0 8 4, listLE c0 12 2⟩

/-- Byte `i` of the assembled system area: zero-filled, with each
present chunk's 64-byte payload copied at `index * 64`. -/
def sys_data_byte (chunks : Chunks) (i : Nat) : Nat :=
  match lookupA chunks (i / 64) with
  | some c => c.data.getD (i % 64) 0
  | none => 0

/-- The FAT: `total` little-endian 16-bit entries starting at byte 14
(the volume header size) of the system area. -/
def build_fat (chunks : Chunks) (total : Nat) : List Nat :=
  (List.range total).map fun i =>
    sys_data_byte chunks (14 + 2 * i) % 256 +
      256 * (sys_data_byte chunks (14 + 2 * i + 1) % 256)

/-! ### Directory walk (src/mfs.rs, `get_blob` / `walk_dir`) -/

/-- Validity in the sense of Rust's `str::from_utf8`. -/
def utf8Valid : List Nat → Bool
  | [] => true
  | b :: rest =>
    if b < 0x80 then utf8Valid rest
    else if b < 0xC2 then false
    else if b ≤ 0xDF then
      match rest with
      | c1 :: r =>
        if 0x80 ≤ c1 ∧ c1 ≤ 0xBF then utf8Valid r else false
      | [] => false
    else if b ≤ 0xEF then
      match rest with
      | c1 :: c2 :: r =>
        if ((if b = 0xE0 then 0xA0 else 0x80) ≤ c1 ∧
            c1 ≤ (if b = 0xED then 0x9F else 0xBF)) ∧
            (0x80 ≤ c2 ∧ c2 ≤ 0xBF) then utf8Valid r
        else false
      | _ => false
    else if b ≤ 0xF4 then
      match rest with
      | c1 :: c2 :: c3 :: r =>
        if ((if b = 0xF0 then 0x90 else 0x80) ≤ c1 ∧
            c1 ≤ (if b = 0xF4 then 0x8F else 0xBF)) ∧
            (0x80 ≤ c2 ∧ c2 ≤ 0xBF) ∧ (0x80 ≤ c3 ∧ c3 ≤ 0xBF) then
          utf8Valid r
        else false
      | _ => false
    else false

/-- `struct DirEntry` (24 bytes). -/
structure DirEntry where
  file_no : Nat
  mode : Nat
  uid : Nat
  gid : Nat
  salt : Nat
  name : List Nat
deriving DecidableEq, Repr

def readDirEntry (fd : List Nat) (o : Nat) : DirEntry :=
  ⟨listLE fd o 4, listLE fd (o + 4) 2, listLE fd (o + 6) 2,
    listLE fd (o + 8) 2, listLE fd (o + 10) 2,
    (List.range 12).map fun j => fd.getD (o + 12 + j) 0⟩

/-- `struct BlobSec` (52 bytes): HMAC, flags, nonce. -/
structure BlobSec where
  hmac : List Nat
  flags : Nat
  nonce : List Nat
deriving DecidableEq, Repr

def readBlobSec (fd : List Nat) (o : Nat) : BlobSec :=
  ⟨(List.range 32).map (fun j => fd.getD (o + j) 0), listLE fd (o + 32) 4,
    (List.range 16).map fun j => fd.getD (o + 36 + j) 0⟩

/-- `check_dir_sec`: bits `[20..32)` of the flags must equal
`encryption << 1`; with anti-replay and encryption both zero the nonce
must be all zero.  (The first flags comparison and the `u7` check are
disabled in the source.) -/
def check_dir_sec (sec : BlobSec) : R Unit :=
  let ar := sec.flags &&& 0b11
  let enc := (sec.flags >>> 2) &&& 1
  let u12 := sec.flags >>> 20
  if u12 ≠ enc <<< 1 then .err
  else if ar = 0 ∧ enc = 0 ∧ sec.nonce ≠ List.replicate 16 0 then .err
  else .ok ()

/-- The recursion loop over directory entries in `get_blob`: entries
named "." or ".." (by their first two name bytes) are skipped;
UTF-8-named directory entries recurse through `recur` (whose errors
`walk_dir` swallows); a non-UTF-8 name indexes the FAT (a panic when
out of bounds) and is otherwise only reported. -/
def walkEntries (fat : List Nat) (recur : Nat → R Unit) :
    List DirEntry → R Unit
  | [] => .ok ()
  | f :: rest =>
    let n2 := f.name.take 2
    if utf8Valid n2 ∧ (n2.takeWhile (· ≠ 0) = [46] ∨
        n2.takeWhile (· ≠ 0) = [46, 46]) then
      walkEntries fat recur rest
    else if utf8Valid f.name then
      if f.mode &&& 0x4000 > 0 then
        match recur (f.file_no &&& 0xfff) with
        | .crash => .crash
        | .dvg => .dvg
        | _ => walkEntries fat recur rest
      else walkEntries fat recur rest
    else
      if f.file_no &&& 0xfff < fat.length then walkEntries fat recur rest
      else .crash

/-- One level of `get_blob`: read the file, check the
`n * 24 + 52` size contract, check the security section, then walk the
entries.  `usize` wrap-around of `size - SEC_SIZE` is modelled
modulo 2^64.  `recur` is the `walk_dir` recursion. -/
def get_blob_step (chunks : Chunks) (n_sys_chunks : Nat) (fat : List Nat)
    (n_files : Nat) (gfuel : Nat) (recur : Nat → R Unit)
    (file_index : Nat) : R Unit :=
  let fi := file_index &&& 0xfff
  match get_file chunks n_sys_chunks fat n_files fi gfuel with
  | .err => .err
  | .crash => .crash
  | .dvg => .dvg
  | .ok (fd, _) =>
    let size := fd.length
    let list_size := (size + (2 ^ 64 - 52)) % 2 ^ 64
    if list_size % 24 ≠ 0 then .err
    else if list_size + 52 ≤ size then
      match check_dir_sec (readBlobSec fd list_size) with
      | .err => .err
      | .crash => .crash
      | .dvg => .dvg
      | .ok _ =>
        walkEntries fat recur
          ((List.range (list_size / 24)).map fun i => readDirEntry fd (i * 24))
    else .crash

/-- `walk_dir`: runs `get_blob` and swallows its error value (the
source only prints it); panics and divergence propagate.  `fuel`
bounds the directory recursion depth. -/
def walk_dir (chunks : Chunks) (n_sys_chunks : Nat) (fat : List Nat)
    (n_files : Nat) (gfuel : Nat) : Nat → Nat → R Unit
  | 0, _ => .dvg
  | fuel + 1, file_index =>
    match get_blob_step chunks n_sys_chunks fat n_files gfuel
        (walk_dir chunks n_sys_chunks fat n_files gfuel fuel)
        file_index with
    | .ok _ => .ok ()
    | .err => .ok ()
    | .crash => .crash
    | .dvg => .dvg

/-- `print_files`: reconstructs every file for display; `Err` values
are printed and ignored, but a panic or divergence inside `get_file`
propagates. -/
def print_files (chunks : Chunks) (n_sys_chunks : Nat) (fat : List Nat)
    (n_files : Nat) (gfuel : Nat) : List Nat → R Unit
  | [] => .ok ()
  | fi :: rest =>
    match get_file chunks n_sys_chunks fat n_files fi gfuel with
    | .crash => .crash
    | .dvg => .dvg
    | _ => print_files chunks n_sys_chunks fat n_files gfuel rest

/-- Phase A result of `parse_gen3` on a partition. -/
def gen3_classified (data : BSlice) :
    R (List SysPage × List DataPage × Nat) :=
  classify_pages data (pagePositions data.len) ([], [], 0)

/-- The data pages in ascending first-chunk order (after Phase A). -/
def gen3_sorted_data (data : BSlice) : List DataPage :=
  match gen3_classified data with
  | .ok (_, dps, _) => sortByKey (fun p => p.header.first_chunk) dps
  | _ => []

/-- `n_sys_chunks`: the smallest data page's first chunk. -/
def gen3_nsys (data : BSlice) : Nat :=
  match gen3_sorted_data data with
  | p :: _ => p.header.first_chunk
  | [] => 0

/-- `parse_gen3(data)`.  `fuel` bounds the directory recursion and the
FAT loop of each `get_file` call; each value of `fuel` is a faithful
under-approximation and the source behaviour is the limit. -/
def parse_gen3 (data : BSlice) (fuel : Nat) : R Bool :=
  let size := data.len
  let n_pages := size / GEN3_PAGE_SIZE
  let n_sys_pages := n_pages / 12
  let n_data_pages := n_pages - n_sys_pages - 1
  let n_data_chunks := n_data_pages * 122
  match gen3_classified data with
  | .err => .err
  | .crash => .crash
  | .dvg => .dvg
  | .ok (sys_pages, data_pages, _blank) =>
    let sysS := sortByKey (fun p => p.header.usn) sys_pages
    match sortByKey (fun p => p.header.first_chunk) data_pages with
    | [] => .err
    | first_page :: dtail =>
      let n_sys_chunks := first_page.header.first_chunk
      match insert_sys_pages n_sys_chunks sysS [] with
      | .err => .err
      | .crash => .crash
      | .dvg => .dvg
      | .ok chunks0 =>
        match insert_data_pages n_sys_chunks 0 (first_page :: dtail)
            chunks0 with
        | .err => .err
        | .crash => .crash
        | .dvg => .dvg
        | .ok chunks =>
          match lookupA chunks 0 with
          | none => .crash
          | some c0 =>
            if listLE c0.data 0 4 ≠ 0x724F6201 then .err
            else
              let vh := readVolHeader c0.data
              let n_sys_bytes := n_sys_chunks * 64
              let total := vh.files + n_data_chunks
              if 14 + total * 2 ≤ n_sys_bytes then
                let fat := build_fat chunks total
                match print_files chunks n_sys_chunks fat vh.files fuel
                    (List.range vh.files) with
                | .crash => .crash
                | .dvg => .dvg
                | _ =>
                  if 8 < fat.length then
                    if fat.getD 8 0 ≠ 0 then
                      match walk_dir chunks n_sys_chunks fat vh.files fuel
                          fuel 0x10000008 with
                      | .crash => .crash
                      | .dvg => .dvg
                      | _ => .ok true
                    else .ok true
                  else .crash
              else .crash

/-- Whether the page at `pos` counts against the claim: a nonzero page
offset whose first word is not the Gen 3 page magic. -/
def blankP (data : BSlice) (pos : Nat) : Bool :=
  decide (pos ≠ 0) && ! decide (data.readU32 pos = some GEN3_PAGE_MAGIC)

/-- Byte `i` of the counterexample's system page: Gen 3 page magic,
USN 1, `first_chunk = 0`; slot 0 holds `0x0b5b` (so the derived index
of its chunk is `crc_idx(0) XOR 0x0b5b = 0`), slot 1 holds the
end-of-list marker `0x7fff`; chunk 0 carries the volume header magic
`0x724F_6201` with `files = 0` and its correct CCITT checksum
`0xc33e`. -/
def c2page0 (i : Nat) : Nat :=
  if i = 0 then 0x87 else if i = 1 then 0x78 else if i = 2 then 0x55
  else if i = 3 then 0xaa else if i = 4 then 1
  else if i = 18 then 0x5b else if i = 19 then 0x0b
  else if i = 20 then 0xff else if i = 21 then 0x7f
  else if i = 260 then 0x01 else if i = 261 then 0x62
  else if i = 262 then 0x4f else if i = 263 then 0x72
  else if i = 324 then 0x3e else if i = 325 then 0xc3
  else 0

/-- Byte `i` of the counterexample's data page: page magic, USN 2,
`first_chunk = 5`, all 122 slots free (`0xff`). -/
def c2page1 (i : Nat) : Nat :=
  if i = 0 then 0x87 else if i = 1 then 0x78 else if i = 2 then 0x55
  else if i = 3 then 0xaa else if i = 4 then 2
  else if i = 14 then 5
  else if 18 ≤ i ∧ i < 140 then 0xff
  else 0

/-- A two-page MFS Gen 3 partition with NO blank page at all. -/
def c2img : BSlice :=
  ⟨fun i => if i < 0x2000 then c2page0 i else c2page1 (i - 0x2000), 0x4000⟩

/-- Payload of the counterexample's volume-header chunk: the volume
magic `0x724F_6201` in little-endian followed by zeros (60 bytes). -/
def c2c0data : List Nat := [1, 98, 79, 114] ++ List.replicate 60 0

/-- The counterexample's single system chunk (index 0), with the
correct CCITT checksum over payload plus little-endian index 0. -/
def c2C0 : Chunk := ⟨c2c0data, 0xc33e⟩

def c2H0 : PageHeader := ⟨[0x87, 0x78, 0x55, 0xaa], 1, 0, 0, 0, 0, 0⟩

def c2H1 : PageHeader := ⟨[0x87, 0x78, 0x55, 0xaa], 2, 0, 0, 5, 0, 0⟩

def c2S0 : SysPage := ⟨0, c2H0, [(0, c2C0)]⟩

def c2D1 : DataPage := ⟨0x2000, c2H1, []⟩

/-- The system page of `c2img` as the slice taken by `parse_gen3`. -/
def c2P0 : BSlice := ⟨fun j => c2img.fn (0 + j), 0x2000⟩

/-- The data page of `c2img` as the slice taken by `parse_gen3`. -/
def c2P1 : BSlice := ⟨fun j => c2img.fn (0x2000 + j), 0x2000⟩

/-- First 22 bytes of the checksummed stream. -/
def c2crcA : List Nat := [1, 98, 79, 114] ++ List.replicate 18 0

/-- Middle 22 bytes. -/
def c2crcB : List Nat := List.replicate 22 0

/-- Last 22 bytes (with the two index bytes). -/
def c2crcC : List Nat := List.replicate 22 0

/-! ## The top-level parser `parse` of src/lib.rs, with its components:
the flash partition table of src/fpt.rs, the manifest of src/man.rs,
the Gen 2 directory of src/gen2.rs and the code partition directory of
src/cpd.rs. -/

/-- Name constant FTUP, `u32::from_be_bytes` of the four ASCII name
bytes (src/lib.rs). -/
def FTUP : Nat := be32 [0x46, 0x54, 0x55, 0x50]

/-- Name constant DLMP. -/
def DLMP : Nat := be32 [0x44, 0x4c, 0x4d, 0x50]

/-- Name constant FTPR. -/
def FTPR : Nat := be32 [0x46, 0x54, 0x50, 0x52]

/-- Name constant NFTP. -/
def NFTP : Nat := be32 [0x4e, 0x46, 0x54, 0x50]

/-- Name constant MDMV. -/
def MDMV : Nat := be32 [0x4d, 0x44, 0x4d, 0x56]

/-- Name constant MFS, from the four bytes of the padded name. -/
def MFS : Nat := be32 [0x4d, 0x46, 0x53, 0x00]

/-- Name constant AFSP. -/
def AFSP : Nat := be32 [0x41, 0x46, 0x53, 0x50]

/-- Compression signature `SIG_LUT`, little-endian u32 of "LLUT". -/
def SIG_LUT : Nat := 0x54554c4c

/-- Compression signature `SIG_LZMA`, little-endian u32 of the bytes
0x36 0x00 0x40 0x00. -/
def SIG_LZMA : Nat := 0x00400036

/-- The bytes of the CPD magic string (src/cpd.rs `CPD_MAGIC`). -/
def cpdMagicBytes : List Nat := [0x24, 0x43, 0x50, 0x44]

/-- The bytes of the FPT magic string (src/fpt.rs `FPT_MAGIC`). -/
def fptMagicBytes : List Nat := [0x24, 0x46, 0x50, 0x54]

/-- The bytes of the manifest magic (src/man.rs `MANIFEST2_MAGIC`). -/
def mn2MagicBytes : List Nat := [0x24, 0x4d, 0x4e, 0x32]

/-- Code partition directory header `struct CPDHeader` (16 bytes,
src/cpd.rs). -/
structure CPDHeader where
  magic : List Nat
  entries : Nat
  version_or_checksum : Nat
  part_name : List Nat
deriving DecidableEq, Repr

/-- Header read of `CodePartitionDirectory::new` (read_from_prefix):
`none` if fewer than 16 bytes. -/
def readCPDHeader (s : BSlice) : Option CPDHeader :=
  if 16 ≤ s.len then
    some ⟨s.bytesAt 0 4, s.leAt 4 4, s.leAt 8 4, s.bytesAt 12 4⟩
  else none

/-- Code partition directory entry `struct CPDEntry` (24 bytes). -/
structure CPDEntry where
  name : List Nat
  offset : Nat
  size : Nat
  compression_flag : Nat
deriving DecidableEq, Repr

/-- One CPD entry read at `pos`, which the caller unwraps: `none` (a
panic) unless 24 bytes remain at `pos`. -/
def readCPDEntry (s : BSlice) (pos : Nat) : Option CPDEntry :=
  if pos + 24 ≤ s.len then
    some ⟨s.bytesAt pos 12, s.leAt (pos + 12) 4, s.leAt (pos + 16) 4,
      s.leAt (pos + 20) 4⟩
  else none

/-- The CPD header size actually used: some ME variants have an extra
4 bytes, selected on `version_or_checksum == 0x00140102`. -/
def cpd_header_size (h : CPDHeader) : Nat :=
  if h.version_or_checksum = 0x00140102 then 20 else 16

/-- The entry-reading loop of `CodePartitionDirectory::new`: entry `e`
sits at `header_size + e * 24`, and its offset field is masked with
`OFFSET_MASK = 0xffffff` after reading. -/
def readCPDEntriesGo (s : BSlice) (hs : Nat) :
    List Nat → List CPDEntry → Option (List CPDEntry)
  | [], acc => some acc
  | e :: rest, acc =>
    match readCPDEntry s (hs + e * 24) with
    | none => none
    | some ent =>
      readCPDEntriesGo s hs rest
        (acc ++ [{ ent with offset := ent.offset &&& 0xffffff }])

/-- Directory record `struct CodePartitionDirectory` (src/cpd.rs).  The
`name` field holds the raw `part_name` bytes (the source stores their
trimmed UTF-8 rendering); the source also stores a copy of the input
slice, used only by the separate `manifest()` accessor and not
modelled. -/
structure CodePartitionDirectory where
  header : CPDHeader
  entries : List CPDEntry
  offset : Nat
  name : List Nat
deriving DecidableEq, Repr

/-- Constructor `CodePartitionDirectory::new(data, offset)`: the header
read and each entry read are unwrapped (a panic, here `crash`, on short
data); there is no `Err` path. -/
def CodePartitionDirectory.new (data : BSlice) (offset : Nat) :
    R CodePartitionDirectory :=
  match readCPDHeader data with
  | none => .crash
  | some header =>
    match readCPDEntriesGo data (cpd_header_size header)
        (List.range header.entries) [] with
    | none => .crash
    | some entries => .ok ⟨header, entries, offset, header.part_name⟩

/-- Manifest version `struct Version` (src/man.rs). -/
structure ManVersion where
  major : Nat
  minor : Nat
  patch : Nat
  build : Nat
deriving DecidableEq, Repr

/-- Manifest date `struct Date` (src/man.rs). -/
structure ManDate where
  day : Nat
  month : Nat
  year : Nat
deriving DecidableEq, Repr

/-- Manifest header `struct Header` (128 bytes, src/man.rs).  The
placeholder fields at 0x2c, 0x30, 0x34 and 0x38 are kept as `xx0`,
`r30`, `xxx` and `r38`. -/
structure ManHeader where
  mod_type : Nat
  mod_subtype : Nat
  header_len : Nat
  header_ver : Nat
  flags : Nat
  vendor : Nat
  date : ManDate
  size : Nat
  magic : List Nat
  entries : Nat
  version : ManVersion
  xx0 : Nat
  r30 : Nat
  xxx : Nat
  r38 : List Nat
  key_size : Nat
  scratch_size : Nat
deriving DecidableEq, Repr

/-- Manifest header read, which `Manifest::new` unwraps: `none` if
fewer than 128 bytes. -/
def readManHeader (s : BSlice) : Option ManHeader :=
  if 128 ≤ s.len then
    some ⟨s.leAt 0 2, s.leAt 2 2, s.leAt 4 4, s.leAt 8 4, s.leAt 12 4,
      s.leAt 16 4, ⟨s.byteAt 20, s.byteAt 21, s.leAt 22 2⟩, s.leAt 24 4,
      s.bytesAt 28 4, s.leAt 32 4,
      ⟨s.leAt 36 2, s.leAt 38 2, s.leAt 40 2, s.leAt 42 2⟩,
      s.leAt 44 4, s.leAt 48 4, s.leAt 52 4, s.bytesAt 56 64,
      s.leAt 120 4, s.leAt 124 4⟩
  else none

/-- Manifest byte size `MANIFEST_SIZE` (0x284 = 644 bytes). -/
def MANIFEST_SIZE : Nat := 644

/-- Manifest record `struct Manifest` (src/man.rs). -/
structure Manifest where
  header : ManHeader
  rsa_pub_key : List Nat
  rsa_pub_exp : Nat
  rsa_sig : List Nat
deriving DecidableEq, Repr

/-- Constructor `Manifest::new(data)` (src/man.rs): the header read is
unwrapped (panic when fewer than 128 bytes remain); a wrong magic is an
`Err`; then the key (`data[128..384]`), exponent (`data[384..388]`) and
signature (`data[388..644]`) slices each panic when out of bounds. -/
def Manifest.new (data : BSlice) : R Manifest :=
  match readManHeader data with
  | none => .crash
  | some header =>
    if header.magic ≠ mn2MagicBytes then .err
    else if 384 ≤ data.len then
      if 388 ≤ data.len then
        if 644 ≤ data.len then
          .ok ⟨header, data.bytesAt 128 256, data.leAt 384 4,
            data.bytesAt 388 256⟩
        else .crash
      else .crash
    else .crash

/-- Gen 2 directory header `struct Header` (16 bytes, src/gen2.rs). -/
structure Gen2Header where
  checksum : List Nat
  name : List Nat
  pad : List Nat
deriving DecidableEq, Repr

/-- Header read of the Gen 2 directory: `none` below 16 bytes (turned
into an `Err` by the let-else in the constructor). -/
def readGen2Header (s : BSlice) : Option Gen2Header :=
  if 16 ≤ s.len then
    some ⟨s.bytesAt 0 4, s.bytesAt 4 4, s.bytesAt 8 8⟩
  else none

/-- Gen 2 directory entry (96 bytes).  The field names follow the
annotated copy of the same layout in src/dir/gen2.rs
(`MeModuleHeader2`); src/gen2.rs names the fields past `name` with
placeholder offsets, and src/lib.rs reads the module offset at byte
0x38 of the record. -/
structure Gen2Entry where
  magic : List Nat
  name : List Nat
  hash : List Nat
  mod_base : Nat
  offset : Nat
  code_size : Nat
  size : Nat
  memory_size : Nat
  pre_uma_size : Nat
  entry_point : Nat
  flags : Nat
  r54 : Nat
  r58 : Nat
  r5c : Nat
deriving DecidableEq, Repr

/-- One 96-byte Gen 2 entry at position `pos` (bounds established by
the caller). -/
def readGen2Entry (s : BSlice) (pos : Nat) : Gen2Entry :=
  ⟨s.bytesAt pos 4, s.bytesAt (pos + 4) 16, s.bytesAt (pos + 20) 32,
    s.leAt (pos + 52) 4, s.leAt (pos + 56) 4, s.leAt (pos + 60) 4,
    s.leAt (pos + 64) 4, s.leAt (pos + 68) 4, s.leAt (pos + 72) 4,
    s.leAt (pos + 76) 4, s.leAt (pos + 80) 4, s.leAt (pos + 84) 4,
    s.leAt (pos + 88) 4, s.leAt (pos + 92) 4⟩

/-- Gen 2 module compression (src/dir/gen2.rs `enum Compression`). -/
inductive Compression where
  | Uncompressed
  | Huffman
  | Lzma
  | Unknown
deriving DecidableEq, Repr

/-- Accessor `compression_type`: bits 4..6 of `flags`. -/
def Gen2Entry.compression_type (e : Gen2Entry) : Compression :=
  match (e.flags >>> 4) &&& 7 with
  | 0 => .Uncompressed
  | 1 => .Huffman
  | 2 => .Lzma
  | _ => .Unknown

/-- Binary map of a Gen 2 module (`struct BinaryMap`). -/
structure BinaryMap where
  rapi : Nat
  kapi : Nat
  code_start : Nat
  code_end : Nat
  data_end : Nat
deriving DecidableEq, Repr

/-- Accessor `bin_map`: u32 arithmetic, wrapping `% 2^32`. -/
def Gen2Entry.bin_map (e : Gen2Entry) : BinaryMap :=
  let rapi := (e.flags >>> 17) &&& 7
  let kapi := (e.flags >>> 20) &&& 3
  ⟨rapi, kapi, (e.mod_base + (rapi + kapi) * 0x1000) % 2 ^ 32,
    (e.mod_base + e.code_size) % 2 ^ 32,
    (e.mod_base + e.memory_size) % 2 ^ 32⟩

/-- Gen 2 directory `struct Directory` (src/gen2.rs). -/
structure Gen2Directory where
  header : Gen2Header
  entries : List Gen2Entry
deriving DecidableEq, Repr

/-- Constructor `Directory::new(data, count)` (src/gen2.rs): a short
header or a short entry array is an `Err` (let-else), not a panic; the
entry array of `count` 96-byte records starts at byte 16.  The
alignment requirement of `Ref::new_slice_from_prefix` on the borrowed
buffer is not modelled (buffers are assumed aligned). -/
def Gen2Directory.new (data : BSlice) (count : Nat) : R Gen2Directory :=
  match readGen2Header data with
  | none => .err
  | some header =>
    if count * 96 ≤ data.len - 16 then
      .ok ⟨header,
        (List.range count).map (fun i => readGen2Entry data (16 + i * 96))⟩
    else .err

/-- FITC version record `struct FitcVer` (src/fpt.rs). -/
structure FitcVer where
  major : Nat
  minor : Nat
  hotfix : Nat
  build : Nat
deriving DecidableEq, Repr

/-- Flash partition table header `struct FPT` (32 bytes, src/fpt.rs). -/
structure FPT where
  signature : List Nat
  entries : Nat
  header_ver : Nat
  entry_ver : Nat
  header_len : Nat
  checksum : Nat
  ticks_to_add : Nat
  tokens_to_add : Nat
  uma_size_or_reserved : Nat
  flash_layout_or_flags : Nat
  fitc_ver : FitcVer
deriving DecidableEq, Repr

/-- Table header read at `o`, which `parse` unwraps: `none` (a panic)
unless 32 bytes remain at `o`. -/
def readFPT (s : BSlice) (o : Nat) : Option FPT :=
  if o + 32 ≤ s.len then
    some ⟨s.bytesAt o 4, s.leAt (o + 4) 4, s.byteAt (o + 8),
      s.byteAt (o + 9), s.byteAt (o + 10), s.byteAt (o + 11),
      s.leAt (o + 12) 2, s.leAt (o + 14) 2, s.leAt (o + 16) 4,
      s.leAt (o + 20) 4,
      ⟨s.leAt (o + 24) 2, s.leAt (o + 26) 2, s.leAt (o + 28) 2,
        s.leAt (o + 30) 2⟩⟩
  else none

/-- Partition table entry `struct FPTEntry` (32 bytes, src/fpt.rs). -/
structure FPTEntry where
  name : List Nat
  owner : List Nat
  offset : Nat
  size : Nat
  start_tokens : Nat
  max_tokens : Nat
  scratch_sectors : Nat
  flags : Nat
deriving DecidableEq, Repr

/-- Table entry read at `pos`, which `parse` unwraps: `none` (a panic)
unless 32 bytes remain at `pos`. -/
def readFPTEntry (s : BSlice) (pos : Nat) : Option FPTEntry :=
  if pos + 32 ≤ s.len then
    some ⟨s.bytesAt pos 4, s.bytesAt (pos + 4) 4, s.leAt (pos + 8) 4,
      s.leAt (pos + 12) 4, s.leAt (pos + 16) 4, s.leAt (pos + 20) 4,
      s.leAt (pos + 24) 4, s.leAt (pos + 28) 4⟩
  else none

/-- The entry-reading loop of `parse`: entry `e` of the table whose
header starts at `o` sits at `o + 32 + e * 32` (skipping the table
header itself); each read is unwrapped. -/
def readFptEntriesGo (s : BSlice) (o : Nat) :
    List Nat → List FPTEntry → R (List FPTEntry)
  | [], acc => .ok acc
  | e :: rest, acc =>
    match readFPTEntry s (o + 32 + e * 32) with
    | none => .crash
    | some ent => readFptEntriesGo s o rest (acc ++ [ent])

/-- Result record `struct ME_FPT` as constructed by `parse` in
src/lib.rs (`base`, `header`, `entries`, `directories`; the fpt.rs copy
of the struct in this snapshot declares further fields that `parse`
does not populate). -/
structure ME_FPT where
  base : Nat
  header : FPT
  entries : List FPTEntry
  directories : List CodePartitionDirectory
deriving DecidableEq, Repr

/-- The CPD pre-scan offsets of `parse`: the loop adds 16 to `o` and
requires (before incrementing) `o + 16 + 32 <= len`, so it checks
every positive multiple `o` of 16 with `o + 32 <= len`. -/
def prescanOffsets (len : Nat) : List Nat :=
  (List.range ((len - 32) / 16)).map (fun i => 16 * (i + 1))

/-- The pre-scan loop body: at each candidate offset whose four bytes
are the CPD magic, a code partition directory is parsed from
`&data[o..]` and pushed; the constructor result is unwrapped (an `Err`
would panic). -/
def prescan_cpds (data : BSlice) :
    List Nat → List CodePartitionDirectory →
    R (List CodePartitionDirectory)
  | [], acc => .ok acc
  | o :: rest, acc =>
    if data.bytesAt o 4 = cpdMagicBytes then
      match data.sliceFrom o with
      | none => .crash
      | some sl =>
        match CodePartitionDirectory.new sl o with
        | .ok d => prescan_cpds data rest (acc ++ [d])
        | .err => .crash
        | .crash => .crash
        | .dvg => .dvg
    else prescan_cpds data rest acc

/-- The FPT scan candidates of `parse`: bases 0, 16, 32, ... while
`base + 16 + 32 <= len`. -/
def fptScanBases (len : Nat) : List Nat :=
  (List.range (if len < 48 then 0 else (len - 48) / 16 + 1)).map
    (fun j => 16 * j)

/-- The first scanned base whose four bytes at `base + 16` are the FPT
magic (the scan loop of `parse` returns from the first match). -/
def firstFptBase (data : BSlice) : Option Nat :=
  (fptScanBases data.len).find?
    (fun b => decide (data.bytesAt (b + 16) 4 = fptMagicBytes))

/-- Base realignment of `parse`: when the matching base is not 4
KiB-aligned, the effective partition base becomes the magic position
`base + 16`. -/
def realign_base (b : Nat) : Nat :=
  if b % 0x1000 ≠ 0 then b + 16 else b

/-- Offset resolution for one partition entry in `parse`:
`base + (e.offset & 0x003f_ffff)`. -/
def entry_data_offset (base : Nat) (e : FPTEntry) : Nat :=
  base + (e.offset &&& 0x3fffff)

/-- The per-module signature loop run over a Gen 2 directory by
`parse`: for each module entry the u32 at `o + e.offset` is read
(`&data[pos..pos + 4]` panics when out of bounds); when it is neither
`SIG_LUT` nor `SIG_LZMA`, `dump48` prints from `&data[pos..]` and
panics unless 0x30 bytes remain. -/
def gen2_entries_scan (data : BSlice) (o : Nat) :
    List Gen2Entry → R Unit
  | [] => .ok ()
  | e :: rest =>
    match data.sliceAt (o + e.offset) 4 with
    | none => .crash
    | some sl =>
      if sl.leAt 0 4 = SIG_LUT ∨ sl.leAt 0 4 = SIG_LZMA then
        gen2_entries_scan data o rest
      else if o + e.offset + 0x30 ≤ data.len then
        gen2_entries_scan data o rest
      else .crash

/-- Dispatch of one partition entry (the match inside the entry loop of
`parse`).  The entry name is first rendered with
`from_utf8(&e.name).unwrap()`, a panic on invalid UTF-8.  Returns the
code partition directory to push, if any; only the CPD branch of the
DLMP/FTPR/NFTP arm pushes one.  The MFS/AFSP arm is a no-op because the
compile-time constant `PARSE_MFS` is `false`; the `debug` dumps are
compiled out (`debug = false`). -/
def dispatch_entry (data : BSlice) (base : Nat) (e : FPTEntry) :
    R (Option CodePartitionDirectory) :=
  if utf8Valid e.name then
    let n := be32 e.name
    let o := entry_data_offset base e
    if n = DLMP ∨ n = FTPR ∨ n = NFTP then
      if o + 4 < data.len then
        if data.bytesAt o 4 = cpdMagicBytes then
          match data.sliceAt o e.size with
          | none => .crash
          | some sl =>
            match CodePartitionDirectory.new sl o with
            | .ok d => .ok (some d)
            | .err => .crash
            | .crash => .crash
            | .dvg => .dvg
        else
          match data.sliceFrom o with
          | none => .crash
          | some sl =>
            match Manifest.new sl with
            | .err => .ok none
            | .crash => .crash
            | .dvg => .dvg
            | .ok m =>
              match data.sliceFrom (o + MANIFEST_SIZE) with
              | none => .crash
              | some d2 =>
                match Gen2Directory.new d2 m.header.entries with
                | .err => .ok none
                | .crash => .crash
                | .dvg => .dvg
                | .ok dir =>
                  match gen2_entries_scan data o dir.entries with
                  | .ok _ => .ok none
                  | .err => .err
                  | .crash => .crash
                  | .dvg => .dvg
      else .ok none
    else if n = MDMV then
      match data.sliceFrom o with
      | none => .crash
      | some sl =>
        match Manifest.new sl with
        | .err => .ok none
        | .crash => .crash
        | .dvg => .dvg
        | .ok m =>
          match data.sliceFrom (o + MANIFEST_SIZE) with
          | none => .crash
          | some d2 =>
            match Gen2Directory.new d2 m.header.entries with
            | .err => .ok none
            | .crash => .crash
            | .dvg => .dvg
            | .ok dir =>
              match gen2_entries_scan data o dir.entries with
              | .ok _ => .ok none
              | .err => .err
              | .crash => .crash
              | .dvg => .dvg
    else if n = MFS ∨ n = AFSP then
      .ok none
    else
      if n ≠ FTUP ∧ o + 4 < data.len ∧
          utf8Valid (data.bytesAt o 4) = true ∧
          data.bytesAt o 4 = cpdMagicBytes then
        .ok none
      else
        match data.sliceFrom o with
        | none => .crash
        | some sl =>
          match Manifest.new sl with
          | .ok _ => .ok none
          | .err => .ok none
          | .crash => .crash
          | .dvg => .dvg
  else .crash

/-- The entry loop of `parse`: dispatches each partition entry in
order, appending any directory the dispatch produces. -/
def dispatch_entries (data : BSlice) (base : Nat) :
    List FPTEntry → List CodePartitionDirectory →
    R (List CodePartitionDirectory)
  | [], dirs => .ok dirs
  | e :: rest, dirs =>
    match dispatch_entry data base e with
    | .ok none => dispatch_entries data base rest dirs
    | .ok (some d) => dispatch_entries data base rest (dirs ++ [d])
    | .err => .err
    | .crash => .crash
    | .dvg => .dvg

/-- The FPT stage of `parse`: pre-scan for CPDs, find the first FPT
base, read the table header and its entries, realign the base,
dispatch every entry, and assemble the result; without a magic match
the function returns the single error value (the "No FPT" string). -/
def parse_fpt (data : BSlice) : R ME_FPT :=
  match prescan_cpds data (prescanOffsets data.len) [] with
  | .err => .err
  | .crash => .crash
  | .dvg => .dvg
  | .ok dirs0 =>
    match firstFptBase data with
    | none => .err
    | some b =>
      match readFPT data (b + 16) with
      | none => .crash
      | some fpt =>
        match readFptEntriesGo data (b + 16)
            (List.range fpt.entries) [] with
        | .err => .err
        | .crash => .crash
        | .dvg => .dvg
        | .ok entries =>
          match dispatch_entries data (realign_base b) entries dirs0 with
          | .err => .err
          | .crash => .crash
          | .dvg => .dvg
          | .ok dirs =>
            .ok ⟨realign_base b, fpt, entries, dirs⟩

/-- Top-level `parse(data)` of src/lib.rs: the FIT is parsed first
(its `Ok`/`Err` outcome is only printed, but a panic inside `Fit::new`
propagates), then the FPT stage runs. -/
def parse (data : BSlice) : R ME_FPT :=
  match Fit.new data with
  | .ok _ => parse_fpt data
  | .err => parse_fpt data
  | .crash => .crash
  | .dvg => .dvg

/-- The `base` field of a successful `parse` result (0 otherwise). -/
def parse_base : R ME_FPT → Nat
  | .ok t => t.base
  | _ => 0

/-- The `directories` field of a successful `parse` result (empty
otherwise). -/
def parse_dirs : R ME_FPT → List CodePartitionDirectory
  | .ok t => t.directories
  | _ => []

/-- The empty input image. -/
def emptyImg : BSlice := ⟨fun _ => 0, 0⟩

/-- A 128-byte image whose only nonzero bytes are the FPT magic at
0x30, so the scan first matches at base 0x20. -/
def c8img : BSlice :=
  ⟨fun i =>
    if i = 48 then 0x24 else if i = 49 then 0x46
    else if i = 50 then 0x50 else if i = 51 then 0x54 else 0, 128⟩

/-- A partition table entry whose offset field is 0x40. -/
def c8entry : FPTEntry := ⟨[0, 0, 0, 0], [0, 0, 0, 0], 0x40, 0, 0, 0, 0, 0⟩

/-- A 128-byte image with a CPD magic at offset 16 (empty directory)
and the FPT magic at 0x30. -/
def c10img : BSlice :=
  ⟨fun i =>
    if i = 16 then 0x24 else if i = 17 then 0x43
    else if i = 18 then 0x50 else if i = 19 then 0x44
    else if i = 48 then 0x24 else if i = 49 then 0x46
    else if i = 50 then 0x50 else if i = 51 then 0x54 else 0, 128⟩

@[simp]
theorem R.bind_ok (a : α) (f : α → R β) : R.bind (.ok a) f = f a := rfl

@[simp]
theorem R.bind_err (f : α → R β) : R.bind .err f = .err := rfl

@[simp]
theorem R.bind_crash (f : α → R β) : R.bind .crash f = .crash := rfl

@[simp]
theorem R.bind_dvg (f : α → R β) : R.bind .dvg f = .dvg := rfl

@[simp]
theorem R.pure_def (a : α) : (pure a : R α) = .ok a := rfl

@[simp]
theorem R.bind_def (x : R α) (f : α → R β) : x >>= f = R.bind x f := rfl

theorem lookupA_insertA_self {β : Type} (m : List (Nat × β)) (k : Nat)
    (v : β) : lookupA (insertA m k v) k = some v := by
  induction m with
  | nil => simp [insertA, lookupA]
  | cons p t ih =>
    by_cases hp : p.1 = k
    · simp [insertA, lookupA, hp]
    · simp [insertA, lookupA, hp, ih]

theorem lookupA_insertA_ne {β : Type} (m : List (Nat × β)) (k k' : Nat)
    (v : β) (h : k' ≠ k) : lookupA (insertA m k v) k' = lookupA m k' := by
  have hne : ¬ (k = k') := fun he => h he.symm
  induction m with
  | nil => simp [insertA, lookupA, hne]
  | cons p t ih =>
    by_cases hp : p.1 = k
    · have hp' : ¬ p.1 = k' := by rw [hp]; exact hne
      simp [insertA, lookupA, hp, hp', hne]
    · by_cases hq : p.1 = k'
      · simp [insertA, lookupA, hp, hq, h]
      · simp [insertA, lookupA, hp, hq, ih]

theorem containsKeyA_insertA {β : Type} (m : List (Nat × β)) (k k' : Nat)
    (v : β) (h : containsKeyA m k' = true) :
    containsKeyA (insertA m k v) k' = true := by
  by_cases he : k' = k
  · simp [containsKeyA, he, lookupA_insertA_self]
  · simpa [containsKeyA, lookupA_insertA_ne m k k' v he] using h

/-- C5 counterexample: the claimed value `crc_idx(0) = 0x3fff` is wrong;
the code computes `0x0b5b`. -/
theorem c5_crc_idx_zero_not_3fff : crc_idx 0 ≠ 0x3fff := by decide

/-- C5 (amended): `crc_idx(0) = 0x0b5b`, so with a single system-page
slot value `0x0000` the derived chunk index after one slot is
`crc_idx(0) XOR 0 = 0x0b5b`. -/
theorem c5_crc_idx_zero : crc_idx 0 = 0x0b5b ∧ crc_idx 0 ^^^ 0 = 0x0b5b := by
  constructor
  · decide
  · decide

/-- C7 counterexample: the claim maps `MDMV` to Code, but
`get_part_info` has no `MDMV` arm and classifies it as None. -/
theorem c7_mdmv_not_code : (get_part_info "MDMV").1 ≠ PartitionType.Code := by
  decide

/-- C7 (amended): the classification is total — every name yields
exactly one of Code, Data, None — and it maps FTPR, NFTP, DLMP, FTUP,
ROMB, WCOD, LOCL, ISHC and FTPM to Code; PSVN, IVBP, MFS, FLOG, UTOK,
GLUT, EFFS and FOVD to Data; and AFSP, MDMV and every name outside the
table to None. -/
theorem c7_part_info_total :
    (∀ n : String,
      (get_part_info n).1 = PartitionType.Code ∨
      (get_part_info n).1 = PartitionType.Data ∨
      (get_part_info n).1 = PartitionType.NoType) ∧
    (∀ n ∈ ["FTPR", "NFTP", "DLMP", "FTUP", "ROMB", "WCOD", "LOCL",
        "ISHC", "FTPM"], (get_part_info n).1 = PartitionType.Code) ∧
    (∀ n ∈ ["PSVN", "IVBP", "MFS", "FLOG", "UTOK", "GLUT", "EFFS",
        "FOVD"], (get_part_info n).1 = PartitionType.Data) ∧
    (get_part_info "AFSP").1 = PartitionType.NoType ∧
    (get_part_info "MDMV").1 = PartitionType.NoType ∧
    (∀ n : String, n ∉ knownPartNames →
      (get_part_info n).1 = PartitionType.NoType) := by
  refine ⟨?_, by decide, by decide, by decide, by decide, ?_⟩
  · intro n
    cases h : (get_part_info n).1
    · exact Or.inl rfl
    · exact Or.inr (Or.inl rfl)
    · exact Or.inr (Or.inr rfl)
  · intro n hn
    simp only [knownPartNames, List.mem_cons, List.not_mem_nil, or_false,
      not_or] at hn
    obtain ⟨h1, h2, h3, h4, h5, h6, h7, h8, h9, h10, h11, h12, h13, h14,
      h15, h16, h17, h18⟩ := hn
    simp [get_part_info, h1, h2, h3, h4, h5, h6, h7, h8, h9, h10, h11,
      h12, h13, h14, h15, h16, h17, h18]

/-- C6: the spec says the decoded type is `type_byte & 0x7F`, but the
code masks with `0xef`, which clears bit 4 and keeps bit 7.  At the
failing input `type_byte = 0x10` (CSE Secure Boot, checksum bit clear)
the code decodes `0x10 & 0xef = 0x00`, i.e. `Header`, although
`0x10 & 0x7f = 0x10` names `CSESecureBoot` in the code's own type
table; with the checksum-valid bit set (`0x90`) the decode fails
entirely instead of ignoring the high bit. -/
theorem c6_fit_type_mask_bug :
    FitEntry.get_type ⟨0, [0, 0, 0], 0, 0, 0x10, 0⟩ =
      Except.ok EntryType.Header ∧
    entryTypeTryFrom (0x10 &&& 0x7f) = Except.ok EntryType.CSESecureBoot ∧
    FitEntry.get_type ⟨0, [0, 0, 0], 0, 0, 0x90, 0⟩ =
      Except.error "unknown FIT entry type" ∧
    (FitEntry.is_checksum_valid ⟨0, [0, 0, 0], 0, 0, 0x90, 0⟩ = true ∧
     FitEntry.is_checksum_valid ⟨0, [0, 0, 0], 0, 0, 0x10, 0⟩ = false) := by
  exact ⟨rfl, rfl, rfl, by decide, by decide⟩

/-! ## C9: data-page chunk parsing never fails and ignores CRCs -/

theorem dataKey_ne (fc p q : Nat) (hp : p < 65536) (hq : q < 65536)
    (hne : p ≠ q) : (fc + p) % 65536 ≠ (fc + q) % 65536 := by
  omega

theorem parse_data_chunks_go_isSome (page : BSlice) (fc : Nat)
    (hlen : page.len = 8192) :
    ∀ (l : List Nat) (st : Chunks × Nat), (∀ p ∈ l, p < 122) →
      (parse_data_chunks_go page fc l st).isSome = true := by
  intro l
  induction l with
  | nil => intro st _; simp [parse_data_chunks_go]
  | cons q rest ih =>
    intro st hb
    obtain ⟨chunks, free⟩ := st
    have hq : q < 122 := hb q (List.mem_cons_self q rest)
    have hrest : ∀ p ∈ rest, p < 122 := fun p hp =>
      hb p (List.mem_cons_of_mem q hp)
    have hread : page.readU8 (18 + q) = some (page.byteAt (18 + q)) := by
      simp [BSlice.readU8]; omega
    have hchunk : readChunk page (140 + q * 66) =
        some ⟨page.bytesAt (140 + q * 66) 64,
          page.leAt (140 + q * 66 + 64) 2⟩ := by
      simp [readChunk]; omega
    simp only [parse_data_chunks_go, hread]
    by_cases hff : page.byteAt (18 + q) = 0xff
    · simp only [hff, if_pos rfl]
      exact ih _ hrest
    · simp only [if_neg hff, hchunk]
      exact ih _ hrest

theorem parse_data_chunks_go_untouched (page : BSlice) (fc : Nat) :
    ∀ (l : List Nat) (st : Chunks × Nat) (key : Nat),
      (∀ p ∈ l, (fc + p) % 65536 ≠ key) →
      ∀ res, parse_data_chunks_go page fc l st = some res →
        lookupA res.1 key = lookupA st.1 key := by
  intro l
  induction l with
  | nil =>
    intro st key _ res hres
    simp only [parse_data_chunks_go] at hres
    cases hres
    rfl
  | cons q rest ih =>
    intro st key hk res hres
    obtain ⟨chunks, free⟩ := st
    have hkq : (fc + q) % 65536 ≠ key := hk q (List.mem_cons_self q rest)
    have hkrest : ∀ p ∈ rest, (fc + p) % 65536 ≠ key := fun p hp =>
      hk p (List.mem_cons_of_mem q hp)
    cases hu : page.readU8 (18 + q) with
    | none =>
      simp only [parse_data_chunks_go, hu] at hres
      exact Option.noConfusion hres
    | some s =>
      simp only [parse_data_chunks_go, hu] at hres
      by_cases hff : s = 0xff
      · rw [if_pos hff] at hres
        exact ih (chunks, free + 1) key hkrest res hres
      · rw [if_neg hff] at hres
        cases hc : readChunk page (140 + q * 66) with
        | none =>
          simp only [hc] at hres
          exact Option.noConfusion hres
        | some c =>
          simp only [hc] at hres
          have h2 := ih (insertA chunks ((fc + q) % 65536) c, free) key
            hkrest res hres
          rw [h2]
          exact lookupA_insertA_ne chunks ((fc + q) % 65536) key c (Ne.symm hkq)

theorem parse_data_chunks_go_mem (page : BSlice) (fc pos : Nat)
    (hlen : page.len = 8192) (hpos : pos < 122)
    (hslot : page.byteAt (18 + pos) ≠ 0xff) :
    ∀ (l : List Nat) (st : Chunks × Nat), (∀ p ∈ l, p < 122) → l.Nodup →
      pos ∈ l →
      ∀ res, parse_data_chunks_go page fc l st = some res →
        lookupA res.1 ((fc + pos) % 65536) =
          readChunk page (140 + pos * 66) := by
  intro l
  induction l with
  | nil => intro _ _ _ h; cases h
  | cons q rest ih =>
    intro st hb hnd hmem res hres
    obtain ⟨chunks, free⟩ := st
    have hrest : ∀ p ∈ rest, p < 122 := fun p hp =>
      hb p (List.mem_cons_of_mem q hp)
    rcases List.mem_cons.mp hmem with hqp | hposrest
    · subst hqp
      have hread : page.readU8 (18 + pos) = some (page.byteAt (18 + pos)) := by
        simp [BSlice.readU8]; omega
      have hchunk : readChunk page (140 + pos * 66) =
          some ⟨page.bytesAt (140 + pos * 66) 64,
            page.leAt (140 + pos * 66 + 64) 2⟩ := by
        simp [readChunk]; omega
      simp only [parse_data_chunks_go, hread, if_neg hslot, hchunk] at hres
      have hnotin : pos ∉ rest := (List.nodup_cons.mp hnd).1
      have huntouched := parse_data_chunks_go_untouched page fc rest _
        ((fc + pos) % 65536) (fun p hp => dataKey_ne fc p pos
          (lt_trans (hrest p hp) (by norm_num))
          (lt_trans hpos (by norm_num))
          (fun he => hnotin (he ▸ hp))) res hres
      rw [huntouched, hchunk]
      simpa using lookupA_insertA_self chunks ((fc + pos) % 65536)
        (⟨page.bytesAt (140 + pos * 66) 64,
          page.leAt (140 + pos * 66 + 64) 2⟩ : Chunk)
    · have hnd' : rest.Nodup := (List.nodup_cons.mp hnd).2
      cases hu : page.readU8 (18 + q) with
      | none =>
        simp only [parse_data_chunks_go, hu] at hres
        exact Option.noConfusion hres
      | some s =>
        simp only [parse_data_chunks_go, hu] at hres
        by_cases hff : s = 0xff
        · rw [if_pos hff] at hres
          exact ih (chunks, free + 1) hrest hnd' hposrest res hres
        · rw [if_neg hff] at hres
          cases hc : readChunk page (140 + q * 66) with
          | none =>
            simp only [hc] at hres
            exact Option.noConfusion hres
          | some c =>
            simp only [hc] at hres
            exact ih (insertA chunks ((fc + q) % 65536) c, free) hrest hnd'
              hposrest res hres

/-- C9: on an 8 KiB data page, `parse_data_chunks` always succeeds (its
only failure modes are out-of-bounds reads, which cannot occur on 8192
bytes), and it maps the index `first_chunk + pos` to the raw 66-byte
chunk record at slot position `pos` for every slot byte other than
`0xff`, with no inspection of the chunk's stored `crc16` whatsoever —
only system-page chunks are checksum-verified. -/
theorem c9_parse_data_chunks_total (page : BSlice) (fc pos : Nat)
    (hlen : page.len = 8192) :
    (parse_data_chunks page fc).isSome = true ∧
    (pos < 122 → page.byteAt (18 + pos) ≠ 0xff →
      ∀ res, parse_data_chunks page fc = some res →
        lookupA res.1 ((fc + pos) % 65536) =
          readChunk page (140 + pos * 66)) := by
  constructor
  · exact parse_data_chunks_go_isSome page fc hlen (List.range 122) ([], 0)
      (fun p hp => List.mem_range.mp hp)
  · intro hpos hslot res hres
    exact parse_data_chunks_go_mem page fc pos hlen hpos hslot
      (List.range 122) ([], 0) (fun p hp => List.mem_range.mp hp)
      (List.nodup_range 122) (List.mem_range.mpr hpos) res hres

/-- C9 witness: the theorem applied to the all-zero page, first chunk 5,
slot position 0. -/
theorem c9_witness :
    c9page.len = 8192 ∧ c9page.byteAt (18 + 0) ≠ 0xff ∧
    ((parse_data_chunks c9page 5).isSome = true ∧
     (0 < 122 → c9page.byteAt (18 + 0) ≠ 0xff →
       ∀ res, parse_data_chunks c9page 5 = some res →
         lookupA res.1 ((5 + 0) % 65536) = readChunk c9page (140 + 0 * 66))) :=
  ⟨rfl, by decide, c9_parse_data_chunks_total c9page 5 0 rfl⟩

/-- C4 counterexample: with inode chain `70 → 80 → 0x0020` (and
`n_sys_chunks = 0`, `files = 0`), `get_file` returns 64 + 32 = 96
bytes — one full chunk plus a 32-byte tail — not the claimed
`2 * 64 + 32 = 160`. -/
theorem c4_counterexample :
    c4fat.getD 0 0 = 70 ∧ c4fat.getD 70 0 = 80 ∧ c4fat.getD 80 0 = 0x20 ∧
    get_file c4chunks 0 c4fat 0 0 2 =
      R.ok (c4c0.data ++ c4c1.data.take 32, 32) ∧
    (c4c0.data ++ c4c1.data.take 32).length = 96 ∧
    (c4c0.data ++ c4c1.data.take 32).length ≠ 160 := by
  refine ⟨by decide, by decide, by decide, ?_, by decide, by decide⟩
  decide

/-- C4 (amended): for every chunk map and FAT in which a file's inode
chain is `h0 → h1 → 0x0020` (`FAT[head] = h0`, `FAT[h0] = h1`,
`FAT[h1] = 0x0020`, with `h0` and `h1` valid chunk references — in
range, with 64-byte chunks present, and `h1` above the tail-marker
range `(0, 66]`), `get_file` returns exactly `64 + 32 = 96` bytes, the
last 32 bytes being the first 32 bytes of the second chunk's payload. -/
theorem c4_two_chunk_file (chunks : Chunks) (nsys : Nat) (fat : List Nat)
    (F fi h0 h1 : Nat) (c0 c1 : Chunk) (fuel : Nat)
    (hfi : fi < fat.length) (hhead : fat.getD fi 0 = h0)
    (h0ne : h0 ≠ 0) (h0nf : h0 ≠ 0xffff)
    (hF0 : F ≤ h0) (h0L : h0 < fat.length)
    (hF1 : F ≤ h1) (h1L : h1 < fat.length) (h166 : 66 < h1)
    (hfath0 : fat.getD h0 0 = h1) (hfath1 : fat.getD h1 0 = 0x20)
    (hnw0 : h0 + nsys < 65536) (hnw1 : h1 + nsys < 65536)
    (hc0 : lookupA chunks (h0 + nsys - F) = some c0)
    (hc1 : lookupA chunks (h1 + nsys - F) = some c1)
    (hl0 : c0.data.length = 64) (hl1 : c1.data.length = 64)
    (hfuel : 2 ≤ fuel) :
    get_file chunks nsys fat F fi fuel =
      R.ok (c0.data ++ c1.data.take 32, 32) ∧
    (c0.data ++ c1.data.take 32).length = 96 ∧
    (c0.data ++ c1.data.take 32).drop 64 = c1.data.take 32 := by
  have hF16 : F < 65536 := by omega
  have hci0 : ((h0 + nsys) % 65536 + 65536 - F % 65536) % 65536 =
      h0 + nsys - F := by omega
  have hci1 : ((h1 + nsys) % 65536 + 65536 - F % 65536) % 65536 =
      h1 + nsys - F := by omega
  obtain ⟨f, rfl⟩ : ∃ f, fuel = f + 2 := ⟨fuel - 2, by omega⟩
  have hmain : get_file chunks nsys fat F fi (f + 2) =
      R.ok (c0.data ++ c1.data.take 32, 32) := by
    unfold get_file
    rw [if_pos hfi, hhead]
    rw [if_neg h0nf, if_neg h0ne]
    show get_file_go chunks nsys fat F (f + 1 + 1) h0 [] = _
    unfold get_file_go
    rw [if_neg (by omega : ¬ h0 < F), hci0]
    simp only [hc0]
    rw [if_pos h0L]
    simp only [hfath0]
    rw [if_neg (by omega : ¬ (0 < h1 ∧ h1 ≤ 66))]
    show get_file_go chunks nsys fat F (f + 1) h1 ([] ++ c0.data) = _
    unfold get_file_go
    rw [if_neg (by omega : ¬ h1 < F), hci1]
    simp only [hc1]
    rw [if_pos h1L]
    simp only [hfath1]
    rw [if_pos (by omega : (0 : Nat) < 0x20 ∧ (0x20 : Nat) ≤ 66)]
    rw [if_pos (by omega : (0x20 : Nat) ≤ c1.data.length)]
    simp
  refine ⟨hmain, ?_, ?_⟩
  · have : (c1.data.take 32).length = 32 := by
      rw [List.length_take]; omega
    simp [List.length_append, hl0, this]
  · have : c0.data.length = 64 := hl0
    rw [← this, List.drop_left]

/-! ## C3: FAT-chain termination bound and tail range -/

theorem go_mono (chunks : Chunks) (nsys : Nat) (fat : List Nat) (F : Nat) :
    ∀ n m h acc, n ≤ m →
      get_file_go chunks nsys fat F n h acc ≠ .dvg →
      get_file_go chunks nsys fat F m h acc =
        get_file_go chunks nsys fat F n h acc := by
  intro n
  induction n with
  | zero =>
    intro m h acc _ hnd
    simp [get_file_go] at hnd
  | succ n ih =>
    intro m h acc hm hnd
    obtain ⟨m', rfl⟩ : ∃ m', m = m' + 1 := ⟨m - 1, by omega⟩
    unfold get_file_go at hnd ⊢
    by_cases h1 : h < F
    · simp only [if_pos h1]
    · simp only [if_neg h1] at hnd ⊢
      cases hcl : lookupA chunks
          (((h + nsys) % 65536 + 65536 - F % 65536) % 65536) with
      | none => simp only [hcl]
      | some c =>
        simp only [hcl] at hnd ⊢
        by_cases h2 : h < fat.length
        · simp only [if_pos h2] at hnd ⊢
          by_cases h3 : 0 < fat.getD h 0 ∧ fat.getD h 0 ≤ 66
          · simp only [if_pos h3]
          · simp only [if_neg h3] at hnd ⊢
            exact ih m' (fat.getD h 0) (acc ++ c.data) (by omega) hnd
        · simp only [if_neg h2]

theorem go_acc_irrel (chunks : Chunks) (nsys : Nat) (fat : List Nat)
    (F : Nat) : ∀ n h acc1 acc2,
      (get_file_go chunks nsys fat F n h acc1 = .dvg →
        get_file_go chunks nsys fat F n h acc2 = .dvg) ∧
      (∀ d1 t1, get_file_go chunks nsys fat F n h acc1 = .ok (d1, t1) →
        ∃ d2, get_file_go chunks nsys fat F n h acc2 = .ok (d2, t1)) := by
  intro n
  induction n with
  | zero =>
    intro h acc1 acc2
    refine ⟨fun _ => rfl, fun d1 t1 hok => ?_⟩
    simp [get_file_go] at hok
  | succ n ih =>
    intro h acc1 acc2
    constructor
    · intro hdv
      unfold get_file_go at hdv ⊢
      by_cases h1 : h < F
      · simp only [if_pos h1] at hdv
        exact R.noConfusion hdv
      · simp only [if_neg h1] at hdv ⊢
        cases hcl : lookupA chunks
            (((h + nsys) % 65536 + 65536 - F % 65536) % 65536) with
        | none =>
          simp only [hcl] at hdv
          exact R.noConfusion hdv
        | some c =>
          simp only [hcl] at hdv ⊢
          by_cases h2 : h < fat.length
          · simp only [if_pos h2] at hdv ⊢
            by_cases h3 : 0 < fat.getD h 0 ∧ fat.getD h 0 ≤ 66
            · simp only [if_pos h3] at hdv
              split at hdv
              · exact absurd hdv (by simp)
              · exact absurd hdv (by simp)
            · simp only [if_neg h3] at hdv ⊢
              exact (ih (fat.getD h 0) (acc1 ++ c.data) (acc2 ++ c.data)).1
                hdv
          · simp only [if_neg h2] at hdv
            exact R.noConfusion hdv
    · intro d1 t1 hok
      unfold get_file_go at hok ⊢
      by_cases h1 : h < F
      · simp only [if_pos h1] at hok
        exact R.noConfusion hok
      · simp only [if_neg h1] at hok ⊢
        cases hcl : lookupA chunks
            (((h + nsys) % 65536 + 65536 - F % 65536) % 65536) with
        | none =>
          simp only [hcl] at hok
          exact R.noConfusion hok
        | some c =>
          simp only [hcl] at hok ⊢
          by_cases h2 : h < fat.length
          · simp only [if_pos h2] at hok ⊢
            by_cases h3 : 0 < fat.getD h 0 ∧ fat.getD h 0 ≤ 66
            · simp only [if_pos h3] at hok ⊢
              by_cases h4 : fat.getD h 0 ≤ c.data.length
              · simp only [if_pos h4] at hok ⊢
                obtain ⟨hd, ht⟩ := by
                  have := hok
                  rw [R.ok.injEq, Prod.mk.injEq] at this
                  exact this
                exact ⟨acc2 ++ c.data.take (fat.getD h 0), by rw [ht]⟩
              · simp only [if_neg h4] at hok
                exact R.noConfusion hok
            · simp only [if_neg h3] at hok ⊢
              exact (ih (fat.getD h 0) (acc1 ++ c.data) (acc2 ++ c.data)).2
                d1 t1 hok
          · simp only [if_neg h2] at hok
            exact R.noConfusion hok

theorem go_ok_inv (chunks : Chunks) (nsys : Nat) (fat : List Nat) (F : Nat)
    (n h : Nat) (acc d : List Nat) (t : Nat)
    (hok : get_file_go chunks nsys fat F n h acc = .ok (d, t)) :
    F ≤ h ∧ h < fat.length := by
  cases n with
  | zero => simp [get_file_go] at hok
  | succ n =>
    unfold get_file_go at hok
    by_cases h1 : h < F
    · simp only [if_pos h1] at hok
      exact R.noConfusion hok
    · simp only [if_neg h1] at hok
      cases hcl : lookupA chunks
          (((h + nsys) % 65536 + 65536 - F % 65536) % 65536) with
      | none =>
        simp only [hcl] at hok
        exact R.noConfusion hok
      | some c =>
        simp only [hcl] at hok
        by_cases h2 : h < fat.length
        · exact ⟨by omega, h2⟩
        · simp only [if_neg h2] at hok
          exact R.noConfusion hok

theorem go_ok_tail (chunks : Chunks) (nsys : Nat) (fat : List Nat)
    (F : Nat) : ∀ n h acc d t,
      get_file_go chunks nsys fat F n h acc = .ok (d, t) →
      1 ≤ t ∧ t ≤ 66 := by
  intro n
  induction n with
  | zero => intro h acc d t hok; simp [get_file_go] at hok
  | succ n ih =>
    intro h acc d t hok
    unfold get_file_go at hok
    by_cases h1 : h < F
    · simp only [if_pos h1] at hok
      exact R.noConfusion hok
    · simp only [if_neg h1] at hok
      cases hcl : lookupA chunks
          (((h + nsys) % 65536 + 65536 - F % 65536) % 65536) with
      | none =>
        simp only [hcl] at hok
        exact R.noConfusion hok
      | some c =>
        simp only [hcl] at hok
        by_cases h2 : h < fat.length
        · simp only [if_pos h2] at hok
          by_cases h3 : 0 < fat.getD h 0 ∧ fat.getD h 0 ≤ 66
          · simp only [if_pos h3] at hok
            by_cases h4 : fat.getD h 0 ≤ c.data.length
            · simp only [if_pos h4, R.ok.injEq, Prod.mk.injEq] at hok
              omega
            · simp only [if_neg h4] at hok
              exact R.noConfusion hok
          · simp only [if_neg h3] at hok
            exact ih _ _ _ _ hok
        · simp only [if_neg h2] at hok
          exact R.noConfusion hok

theorem go_ok_fuel_bound (chunks : Chunks) (nsys : Nat) (fat : List Nat)
    (F : Nat) (n h : Nat) (acc d : List Nat) (t : Nat)
    (hn : get_file_go chunks nsys fat F n h acc = .ok (d, t)) :
    get_file_go chunks nsys fat F fat.length h acc = .ok (d, t) := by
  have hex : ∃ k, get_file_go chunks nsys fat F k h acc = .ok (d, t) :=
    ⟨n, hn⟩
  have hk : get_file_go chunks nsys fat F (Nat.find hex) h acc =
      .ok (d, t) := Nat.find_spec hex
  set k := Nat.find hex with hkdef
  have hdvg : ∀ i, i < k → get_file_go chunks nsys fat F i h acc = .dvg := by
    intro i hi
    cases hres : get_file_go chunks nsys fat F i h acc with
    | ok a =>
      have hmono := go_mono chunks nsys fat F i k h acc (by omega)
        (by rw [hres]; simp)
      rw [hk, hres] at hmono
      have : a = (d, t) := by
        have := hmono.symm
        rwa [R.ok.injEq] at this
      exact absurd (hres.trans (by rw [this]))
        (Nat.find_min hex (by omega : i < Nat.find hex))
    | err =>
      have hmono := go_mono chunks nsys fat F i k h acc (by omega)
        (by rw [hres]; simp)
      rw [hk, hres] at hmono
      exact R.noConfusion hmono
    | crash =>
      have hmono := go_mono chunks nsys fat F i k h acc (by omega)
        (by rw [hres]; simp)
      rw [hk, hres] at hmono
      exact R.noConfusion hmono
    | dvg => rfl
  have main : ∀ i, i < k → ∃ acc',
      get_file_go chunks nsys fat F (k - i)
        ((fun x => fat.getD x 0)^[i] h) acc' = .ok (d, t) ∧
      ∀ j, j < k - i →
        get_file_go chunks nsys fat F j
          ((fun x => fat.getD x 0)^[i] h) acc' = .dvg := by
    intro i
    induction i with
    | zero =>
      intro _
      exact ⟨acc, by simpa using hk, by simpa using hdvg⟩
    | succ i ih =>
      intro hik
      obtain ⟨acc', hok, hdv⟩ := ih (by omega)
      obtain ⟨m, hm⟩ : ∃ m, k - i = m + 1 := ⟨k - i - 1, by omega⟩
      rw [hm] at hok
      unfold get_file_go at hok
      by_cases h1 : (fun x => fat.getD x 0)^[i] h < F
      · simp only [if_pos h1] at hok
        exact absurd hok (by simp)
      · simp only [if_neg h1] at hok
        cases hcl : lookupA chunks
            ((((fun x => fat.getD x 0)^[i] h + nsys) % 65536 + 65536 -
              F % 65536) % 65536) with
        | none =>
          simp only [hcl] at hok
          exact R.noConfusion hok
        | some c =>
          simp only [hcl] at hok
          by_cases h2 : (fun x => fat.getD x 0)^[i] h < fat.length
          · simp only [if_pos h2] at hok
            by_cases h3 : 0 < fat.getD ((fun x => fat.getD x 0)^[i] h) 0 ∧
                fat.getD ((fun x => fat.getD x 0)^[i] h) 0 ≤ 66
            · have h1step := hdv 1 (by omega)
              unfold get_file_go at h1step
              simp only [if_neg h1, hcl, if_pos h2, if_pos h3] at h1step
              split at h1step
              · exact R.noConfusion h1step
              · exact R.noConfusion h1step
            · simp only [if_neg h3] at hok
              refine ⟨acc' ++ c.data, ?_, ?_⟩
              · rw [Function.iterate_succ_apply']
                have hkm : k - (i + 1) = m := by omega
                rw [hkm]
                exact hok
              · intro j hj
                have hstep : get_file_go chunks nsys fat F (j + 1)
                    ((fun x => fat.getD x 0)^[i] h) acc' =
                    get_file_go chunks nsys fat F j
                      (fat.getD ((fun x => fat.getD x 0)^[i] h) 0)
                      (acc' ++ c.data) := by
                  conv_lhs => unfold get_file_go
                  simp only [if_neg h1, hcl, if_pos h2, if_neg h3]
                have hd := hdv (j + 1) (by omega)
                rw [hstep] at hd
                rw [Function.iterate_succ_apply']
                exact hd
          · simp only [if_neg h2] at hok
            exact R.noConfusion hok
  have hbounds : ∀ i, i < k →
      F ≤ (fun x => fat.getD x 0)^[i] h ∧
      (fun x => fat.getD x 0)^[i] h < fat.length := by
    intro i hik
    obtain ⟨acc', hok, _⟩ := main i hik
    exact go_ok_inv chunks nsys fat F (k - i) _ acc' d t hok
  have hne : ∀ i j, i < j → j < k →
      (fun x => fat.getD x 0)^[i] h ≠ (fun x => fat.getD x 0)^[j] h := by
    intro i j hij hjk heq
    obtain ⟨accj, hokj, _⟩ := main j hjk
    obtain ⟨acci, _, hdvi⟩ := main i (by omega)
    rw [← heq] at hokj
    obtain ⟨d2, hok2⟩ := (go_acc_irrel chunks nsys fat F (k - j)
      ((fun x => fat.getD x 0)^[i] h) accj acci).2 d t hokj
    have hdd := hdvi (k - j) (by omega)
    rw [hdd] at hok2
    exact R.noConfusion hok2
  have hcard : k ≤ fat.length - F := by
    have hmaps : ∀ a ∈ Finset.range k,
        (fun x => fat.getD x 0)^[a] h ∈ Finset.Ico F fat.length := by
      intro a ha
      obtain ⟨hb1, hb2⟩ := hbounds a (Finset.mem_range.mp ha)
      exact Finset.mem_Ico.mpr ⟨hb1, hb2⟩
    have hinj : Set.InjOn (fun i => (fun x => fat.getD x 0)^[i] h)
        (Finset.range k) := by
      intro a ha b hb heq
      simp only [Finset.coe_range, Set.mem_Iio] at ha hb
      rcases lt_trichotomy a b with hlt | heqq | hgt
      · exact absurd heq (hne a b hlt hb)
      · exact heqq
      · exact absurd heq.symm (hne b a hgt ha)
    have := Finset.card_le_card_of_injOn _ hmaps hinj
    simpa [Nat.card_Ico] using this
  have hmono := go_mono chunks nsys fat F k fat.length h acc (by omega)
    (by rw [hk]; simp)
  rw [hmono, hk]

/-- C3: if `get_file` reconstructs a file at all (returns `Ok`), then it
does so within at most `fat.length = F + N_data_chunks` loop iterations
(running the loop with fuel `fat.length` yields the same result), and
the tail length — the final FAT value, interpreted as the byte count
taken from the last chunk — is in `[1, 66]`. -/
theorem c3_get_file_terminates (chunks : Chunks) (nsys : Nat)
    (fat : List Nat) (F fi fuel : Nat) (d : List Nat) (t : Nat)
    (h : get_file chunks nsys fat F fi fuel = .ok (d, t)) :
    get_file chunks nsys fat F fi fat.length = .ok (d, t) ∧
    1 ≤ t ∧ t ≤ 66 := by
  unfold get_file at h ⊢
  by_cases h1 : fi < fat.length
  · simp only [if_pos h1] at h ⊢
    by_cases h2 : fat.getD fi 0 = 0xffff
    · simp only [if_pos h2] at h
      exact R.noConfusion h
    · simp only [if_neg h2] at h ⊢
      by_cases h3 : fat.getD fi 0 = 0
      · simp only [if_pos h3] at h
        exact R.noConfusion h
      · simp only [if_neg h3] at h ⊢
        exact ⟨go_ok_fuel_bound chunks nsys fat F fuel _ [] d t h,
          go_ok_tail chunks nsys fat F fuel _ [] d t h⟩
  · simp only [if_neg h1] at h
    exact R.noConfusion h

/-- C3 witness: a concrete one-chunk file (`fat = [2, 9, 9]`, head
`fat[0] = 2`, `fat[2] = 9` a tail marker), reconstructed with fuel 1;
the theorem transfers the run to fuel `fat.length = 3` and bounds the
tail. -/
theorem c3_witness :
    get_file [(2, (⟨List.replicate 64 7, 0⟩ : Chunk))] 0 [2, 9, 9] 0 0 1 =
      R.ok ((List.replicate 64 7).take 9, 9) ∧
    (get_file [(2, (⟨List.replicate 64 7, 0⟩ : Chunk))] 0 [2, 9, 9] 0 0
        ([2, 9, 9] : List Nat).length =
      R.ok ((List.replicate 64 7).take 9, 9) ∧
     1 ≤ 9 ∧ 9 ≤ 66) :=
  ⟨by decide,
   c3_get_file_terminates [(2, ⟨List.replicate 64 7, 0⟩)] 0 [2, 9, 9] 0 0 1
     ((List.replicate 64 7).take 9) 9 (by decide)⟩

/-- C4 witness: the amended theorem applied at the concrete chain
`70 → 80 → 0x0020` of `c4fat`/`c4chunks`. -/
theorem c4_witness :
    (0 < c4fat.length ∧ c4fat.getD 0 0 = 70 ∧ c4fat.getD 70 0 = 80 ∧
      c4fat.getD 80 0 = 0x20 ∧ 66 < 80 ∧
      lookupA c4chunks 70 = some c4c0 ∧ lookupA c4chunks 80 = some c4c1) ∧
    (get_file c4chunks 0 c4fat 0 0 2 =
        R.ok (c4c0.data ++ c4c1.data.take 32, 32) ∧
      (c4c0.data ++ c4c1.data.take 32).length = 96 ∧
      (c4c0.data ++ c4c1.data.take 32).drop 64 = c4c1.data.take 32) :=
  ⟨⟨by decide, by decide, by decide, by decide, by decide, by decide,
    by decide⟩,
   c4_two_chunk_file c4chunks 0 c4fat 0 0 70 80 c4c0 c4c1 2
     (by decide) (by decide) (by decide) (by decide) (by decide) (by decide)
     (by decide) (by decide) (by decide) (by decide) (by decide) (by decide)
     (by decide) (by decide) (by decide) (by decide) (by decide)
     (by decide)⟩

/-! ## C2: invariants established by a successful `parse_gen3` -/

theorem lookupA_mem {β : Type} :
    ∀ (m : List (Nat × β)) (k : Nat) (v : β),
      lookupA m k = some v → (k, v) ∈ m := by
  intro m
  induction m with
  | nil => intro k v h; simp [lookupA] at h
  | cons p t ih =>
    intro k v h
    by_cases hp : p.1 = k
    · simp only [lookupA, if_pos hp] at h
      cases h
      have he : (k, p.2) = p := by rw [← hp]
      rw [he]
      exact List.mem_cons_self p t
    · simp only [lookupA, if_neg hp] at h
      exact List.mem_cons_of_mem p (ih k v h)

theorem containsKeyA_exists {β : Type} (m : List (Nat × β)) (k : Nat)
    (h : containsKeyA m k = true) : ∃ v, (k, v) ∈ m := by
  unfold containsKeyA at h
  cases hl : lookupA m k with
  | none => rw [hl] at h; simp at h
  | some v => exact ⟨v, lookupA_mem m k v hl⟩

theorem sliceAt_readU32 (data : BSlice) (pos : Nat) (page : BSlice)
    (h : data.sliceAt pos 0x2000 = some page) :
    page.readU32 0 = data.readU32 pos := by
  unfold BSlice.sliceAt at h
  split at h
  · next hb =>
    cases h
    unfold BSlice.readU32 BSlice.byteAt
    simp only
    rw [if_pos (by norm_num : (0 : Nat) + 4 ≤ 0x2000), if_pos (by omega)]
    norm_num
  · exact Option.noConfusion h

theorem classify_blank_count (data : BSlice) :
    ∀ (l : List Nat) (sys : List SysPage) (dps : List DataPage)
      (blank : Nat) res,
      classify_pages data l (sys, dps, blank) = .ok res →
      (l.filter (blankP data)).length + (if blank = 0 then 0 else 1) ≤ 1 := by
  intro l
  induction l with
  | nil =>
    intro sys dps blank res _
    simp only [List.filter_nil, List.length_nil, Nat.zero_add]
    split
    · omega
    · omega
  | cons pos rest ih =>
    intro sys dps blank res hres
    cases hsl : data.sliceAt pos 0x2000 with
    | none =>
      simp only [classify_pages, hsl] at hres
      exact R.noConfusion hres
    | some page =>
      simp only [classify_pages, hsl] at hres
      cases hrd : page.readU32 0 with
      | none =>
        simp only [hrd] at hres
        exact R.noConfusion hres
      | some m =>
        simp only [hrd] at hres
        have hru : data.readU32 pos = some m :=
          (sliceAt_readU32 data pos page hsl) ▸ hrd
        by_cases hmg : m = GEN3_PAGE_MAGIC
        · have hbp : blankP data pos = false := by
            simp [blankP, hru, hmg]
          rw [if_pos hmg] at hres
          cases hph : readPageHeader page with
          | none =>
            simp only [hph] at hres
            exact R.noConfusion hres
          | some header =>
            simp only [hph] at hres
            by_cases hfc : header.first_chunk > 0
            · rw [if_pos hfc] at hres
              cases hpd : parse_data_chunks page header.first_chunk with
              | none =>
                simp only [hpd] at hres
                exact R.noConfusion hres
              | some pr =>
                obtain ⟨chunks, free⟩ := pr
                simp only [hpd] at hres
                have := ih _ _ blank res hres
                simpa [List.filter_cons, hbp] using this
            · rw [if_neg hfc] at hres
              cases hps : parse_sys_chunks page with
              | ok pr =>
                obtain ⟨chunks, free, dups⟩ := pr
                simp only [hps] at hres
                have := ih _ _ blank res hres
                simpa [List.filter_cons, hbp] using this
              | err =>
                simp only [hps] at hres
                exact R.noConfusion hres
              | crash =>
                simp only [hps] at hres
                exact R.noConfusion hres
              | dvg =>
                simp only [hps] at hres
                exact R.noConfusion hres
        · rw [if_neg hmg] at hres
          by_cases hbz : blank ≠ 0
          · rw [if_pos hbz] at hres
            exact R.noConfusion hres
          · rw [if_neg hbz] at hres
            push_neg at hbz
            have hbp : blankP data pos = decide (pos ≠ 0) := by
              simp [blankP, hru, hmg]
            have hcnt := ih _ _ pos res hres
            by_cases hp0 : pos = 0
            · have hbp0 : blankP data pos = false := by
                rw [hbp]; simp [hp0]
              rw [if_pos hp0] at hcnt
              simp [List.filter_cons, hbp0, hbz]
              omega
            · have h1 : blankP data pos = true := by
                rw [hbp]; simp [hp0]
              rw [if_neg hp0] at hcnt
              have hlen : (List.filter (blankP data) rest).length = 0 := by
                omega
              simp [List.filter_cons, h1, hbz, hlen]

theorem insert_data_pages_fc (nsys : Nat) :
    ∀ (l : List DataPage) (pi : Nat) (acc : Chunks) res,
      insert_data_pages nsys pi l acc = .ok res →
      ∀ k (hk : k < l.length),
        (l.get ⟨k, hk⟩).header.first_chunk = nsys + (pi + k) * 122 := by
  intro l
  induction l with
  | nil => intro pi acc res _ k hk; simp at hk
  | cons p rest ih =>
    intro pi acc res hres k hk
    unfold insert_data_pages at hres
    by_cases hfc : p.header.first_chunk ≠ nsys + pi * 122
    · rw [if_pos hfc] at hres
      exact R.noConfusion hres
    · rw [if_neg hfc] at hres
      push_neg at hfc
      cases hidc : insert_data_chunks p.chunks acc with
      | ok acc' =>
        simp only [hidc] at hres
        cases k with
        | zero => simpa using hfc
        | succ k =>
          have := ih (pi + 1) acc' res hres k (by simpa using hk)
          simp only [List.get_cons_succ]
          rw [this]
          ring_nf
      | err =>
        simp only [hidc] at hres
        exact R.noConfusion hres
      | crash =>
        simp only [hidc] at hres
        exact R.noConfusion hres
      | dvg =>
        simp only [hidc] at hres
        exact R.noConfusion hres

theorem idc_not_in_acc :
    ∀ (l : List (Nat × Chunk)) (acc : Chunks) res,
      insert_data_chunks l acc = .ok res →
      ∀ i c, (i, c) ∈ l → containsKeyA acc i = false := by
  intro l
  induction l with
  | nil => intro acc res _ i c h; cases h
  | cons q rest ih =>
    intro acc res hres i c hm
    obtain ⟨j, cc⟩ := q
    unfold insert_data_chunks at hres
    by_cases hck : containsKeyA acc j = true
    · rw [if_pos hck] at hres
      exact R.noConfusion hres
    · rw [if_neg hck] at hres
      rcases List.mem_cons.mp hm with hh | ht
      · cases hh
        exact Bool.eq_false_iff.mpr hck
      · cases hacc : containsKeyA acc i with
        | false => rfl
        | true =>
          have hins := containsKeyA_insertA acc j i cc hacc
          have hfalse := ih (insertA acc j cc) res hres i c ht
          rw [hins] at hfalse
          exact Bool.noConfusion hfalse

theorem idc_mono :
    ∀ (l : List (Nat × Chunk)) (acc : Chunks) res,
      insert_data_chunks l acc = .ok res →
      ∀ i, containsKeyA acc i = true → containsKeyA res i = true := by
  intro l
  induction l with
  | nil =>
    intro acc res hres i h
    cases hres
    exact h
  | cons q rest ih =>
    intro acc res hres i h
    obtain ⟨j, cc⟩ := q
    unfold insert_data_chunks at hres
    by_cases hck : containsKeyA acc j = true
    · rw [if_pos hck] at hres
      exact R.noConfusion hres
    · rw [if_neg hck] at hres
      exact ih (insertA acc j cc) res hres i (containsKeyA_insertA acc j i cc h)

theorem idc_adds :
    ∀ (l : List (Nat × Chunk)) (acc : Chunks) res,
      insert_data_chunks l acc = .ok res →
      ∀ i c, (i, c) ∈ l → containsKeyA res i = true := by
  intro l
  induction l with
  | nil => intro acc res _ i c h; cases h
  | cons q rest ih =>
    intro acc res hres i c hm
    obtain ⟨j, cc⟩ := q
    unfold insert_data_chunks at hres
    by_cases hck : containsKeyA acc j = true
    · rw [if_pos hck] at hres
      exact R.noConfusion hres
    · rw [if_neg hck] at hres
      rcases List.mem_cons.mp hm with hh | ht
      · cases hh
        exact idc_mono rest (insertA acc i c) res hres i
          (by simp [containsKeyA, lookupA_insertA_self])
      · exact ih (insertA acc j cc) res hres i c ht

theorem idp_disjoint (nsys : Nat) :
    ∀ (l : List DataPage) (pi : Nat) (acc : Chunks) res,
      insert_data_pages nsys pi l acc = .ok res →
      (∀ p ∈ l, ∀ i, containsKeyA p.chunks i = true →
        containsKeyA acc i = false) ∧
      List.Pairwise (fun p q => ∀ i, containsKeyA q.chunks i = true →
        containsKeyA p.chunks i = false) l := by
  intro l
  induction l with
  | nil => intro pi acc res _; exact ⟨fun p hp => absurd hp (by simp), by simp⟩
  | cons p rest ih =>
    intro pi acc res hres
    unfold insert_data_pages at hres
    by_cases hfc : p.header.first_chunk ≠ nsys + pi * 122
    · rw [if_pos hfc] at hres
      exact R.noConfusion hres
    · rw [if_neg hfc] at hres
      cases hidc : insert_data_chunks p.chunks acc with
      | ok acc' =>
        simp only [hidc] at hres
        obtain ⟨ih1, ih2⟩ := ih (pi + 1) acc' res hres
        constructor
        · intro q hq i hqi
          rcases List.mem_cons.mp hq with hh | ht
          · subst hh
            obtain ⟨c, hc⟩ := containsKeyA_exists _ _ hqi
            exact idc_not_in_acc _ acc acc' hidc i c hc
          · have hacc' := ih1 q ht i hqi
            cases hacc : containsKeyA acc i with
            | false => rfl
            | true =>
              have := idc_mono p.chunks acc acc' hidc i hacc
              rw [this] at hacc'
              exact Bool.noConfusion hacc'
        · refine List.pairwise_cons.mpr ⟨?_, ih2⟩
          intro q hq i hqi
          have hacc' := ih1 q hq i hqi
          cases hpk : containsKeyA p.chunks i with
          | false => rfl
          | true =>
            obtain ⟨c, hc⟩ := containsKeyA_exists _ _ hpk
            have := idc_adds p.chunks acc acc' hidc i c hc
            rw [this] at hacc'
            exact Bool.noConfusion hacc'
      | err =>
        simp only [hidc] at hres
        exact R.noConfusion hres
      | crash =>
        simp only [hidc] at hres
        exact R.noConfusion hres
      | dvg =>
        simp only [hidc] at hres
        exact R.noConfusion hres

/-- C2 (amended): if `parse_gen3` succeeds then (i) at most one page at
a nonzero page offset lacks the page magic `0xAA55_7887` (the code
errors on a second blank page, but requires none, and its tracker
misses a blank page at offset 0); (ii) there is at least one data
page, and the `k`-th data page in ascending first-chunk order has
`first_chunk = N_sys + 122 * k`, where `N_sys` is the smallest data
page's first chunk; (iii) no chunk index occurs in more than one data
page. -/
theorem c2_gen3_invariants (data : BSlice) (fuel : Nat) (b : Bool)
    (h : parse_gen3 data fuel = .ok b) :
    ((pagePositions data.len).filter (blankP data)).length ≤ 1 ∧
    gen3_sorted_data data ≠ [] ∧
    (∀ k p, (gen3_sorted_data data).get? k = some p →
      p.header.first_chunk = gen3_nsys data + 122 * k) ∧
    List.Pairwise (fun p q => ∀ i, containsKeyA q.chunks i = true →
      containsKeyA p.chunks i = false) (gen3_sorted_data data) := by
  unfold parse_gen3 at h
  cases hcl : gen3_classified data with
  | err =>
    simp only [hcl] at h
    exact R.noConfusion h
  | crash =>
    simp only [hcl] at h
    exact R.noConfusion h
  | dvg =>
    simp only [hcl] at h
    exact R.noConfusion h
  | ok triple =>
    obtain ⟨sys, dps, blank⟩ := triple
    simp only [hcl] at h
    have hblank : ((pagePositions data.len).filter (blankP data)).length
        ≤ 1 := by
      have := classify_blank_count data (pagePositions data.len) [] [] 0
        (sys, dps, blank) hcl
      simpa using this
    cases hds : sortByKey (fun p => p.header.first_chunk) dps with
    | nil =>
      simp only [hds] at h
      exact R.noConfusion h
    | cons fp dtail =>
      simp only [hds] at h
      have hgs : gen3_sorted_data data = fp :: dtail := by
        unfold gen3_sorted_data
        rw [hcl]
        exact hds
      cases hisp : insert_sys_pages fp.header.first_chunk
          (sortByKey (fun p => p.header.usn) sys) [] with
      | err =>
        simp only [hisp] at h
        exact R.noConfusion h
      | crash =>
        simp only [hisp] at h
        exact R.noConfusion h
      | dvg =>
        simp only [hisp] at h
        exact R.noConfusion h
      | ok chunks0 =>
        simp only [hisp] at h
        cases hidp : insert_data_pages fp.header.first_chunk 0
            (fp :: dtail) chunks0 with
        | err =>
          simp only [hidp] at h
          exact R.noConfusion h
        | crash =>
          simp only [hidp] at h
          exact R.noConfusion h
        | dvg =>
          simp only [hidp] at h
          exact R.noConfusion h
        | ok chunks =>
          have hnsys : gen3_nsys data = fp.header.first_chunk := by
            unfold gen3_nsys
            rw [hgs]
          refine ⟨hblank, by rw [hgs]; simp, ?_, ?_⟩
          · intro k p hp
            rw [hgs] at hp
            obtain ⟨hk, hget⟩ := List.get?_eq_some.mp hp
            have := insert_data_pages_fc fp.header.first_chunk
              (fp :: dtail) 0 chunks0 chunks hidp k hk
            rw [hget] at this
            rw [this, hnsys]
            ring
          · rw [hgs]
            exact (idp_disjoint fp.header.first_chunk (fp :: dtail) 0
              chunks0 chunks hidp).2

set_option maxRecDepth 40000 in
theorem c2_crc : ccitt (c2c0data ++ [0, 0]) = 0xc33e := by
  have hcat : c2c0data ++ [0, 0] = c2crcA ++ (c2crcB ++ c2crcC) := by decide
  have hA : List.foldl ccittByte 0xffff c2crcA = 0xea2d := by decide
  have hB : List.foldl ccittByte 0xea2d c2crcB = 0xf0f1 := by decide
  have hC : List.foldl ccittByte 0xf0f1 c2crcC = 0xc33e := by decide
  unfold ccitt
  rw [hcat, List.foldl_append, List.foldl_append, hA, hB, hC]

set_option maxRecDepth 100000 in
theorem c2_sys : parse_sys_chunks c2P0 = R.ok ([(0, c2C0)], 119, 0) := by
  have hr : List.range 121 = 0 :: 1 :: (List.range 119).map (· + 2) := by
    decide
  have h16a : c2P0.readU16 (18 + 2 * 0) = some 0x0b5b := by decide
  have h16b : c2P0.readU16 (18 + 2 * 1) = some 0x7fff := by decide
  have hrc : readChunk c2P0 (260 + 0 * 66) = some c2C0 := by decide
  have hidx : crc_idx 0 ^^^ 0x0b5b = 0 := by decide
  have hccitt : ccitt (c2C0.data ++ [0 % 256, 0 >>> 8 % 256]) = 0xc33e := by
    have harg : c2C0.data ++ [0 % 256, (0 : Nat) >>> 8 % 256] =
        c2c0data ++ [0, 0] := by decide
    rw [harg]
    exact c2_crc
  unfold parse_sys_chunks
  rw [hr]
  unfold parse_sys_chunks_go
  simp only [h16a]
  rw [if_neg (by decide : ¬ (0x0b5b : Nat) = 0xffff)]
  rw [if_neg (by decide : ¬ (0x0b5b : Nat) = 0x7fff)]
  simp only [hrc, hidx, hccitt]
  have hc16 : c2C0.crc16 = 0xc33e := rfl
  rw [hc16, if_neg (by decide : ¬ (0xc33e : Nat) ≠ 0xc33e)]
  unfold parse_sys_chunks_go
  simp only [h16b]
  rw [if_neg (by decide : ¬ (0x7fff : Nat) = 0xffff)]
  simp only [if_true]
  decide

set_option maxRecDepth 100000 in
theorem c2_classified :
    gen3_classified c2img = R.ok ([c2S0], [c2D1], 0) := by
  have hpp : pagePositions c2img.len = [0, 0x2000] := by decide
  have hsl0 : c2img.sliceAt 0 0x2000 = some c2P0 := rfl
  have hsl1 : c2img.sliceAt 0x2000 0x2000 = some c2P1 := rfl
  have hm0 : c2P0.readU32 0 = some GEN3_PAGE_MAGIC := by decide
  have hph0 : readPageHeader c2P0 = some c2H0 := by decide
  unfold gen3_classified
  rw [hpp]
  unfold classify_pages
  simp only [hsl0, hm0, hph0]
  simp only [if_true]
  rw [if_neg (by decide : ¬ c2H0.first_chunk > 0)]
  simp only [c2_sys]
  decide

set_option maxRecDepth 100000 in
/-- The counterexample partition parses successfully (fuel 1; no
directory walk is reached because the FAT is all zeroes). -/
theorem c2img_parses : parse_gen3 c2img 1 = R.ok true := by
  unfold parse_gen3
  simp only [c2_classified]
  decide

set_option maxRecDepth 10000 in
/-- C2 counterexample: `parse_gen3` succeeds on `c2img`, yet the number
of pages lacking the page magic is 0, not exactly one. -/
theorem c2_counterexample :
    parse_gen3 c2img 1 = R.ok true ∧
    ((pagePositions c2img.len).filter
      (fun pos => ! decide (c2img.readU32 pos =
        some GEN3_PAGE_MAGIC))).length = 0 :=
  ⟨c2img_parses, by decide⟩

/-- C2 witness: the amended invariants instantiated on `c2img`. -/
theorem c2_witness :
    parse_gen3 c2img 1 = R.ok true ∧
    (((pagePositions c2img.len).filter (blankP c2img)).length ≤ 1 ∧
     gen3_sorted_data c2img ≠ [] ∧
     (∀ k p, (gen3_sorted_data c2img).get? k = some p →
       p.header.first_chunk = gen3_nsys c2img + 122 * k) ∧
     List.Pairwise (fun p q => ∀ i, containsKeyA q.chunks i = true →
       containsKeyA p.chunks i = false) (gen3_sorted_data c2img)) :=
  ⟨c2img_parses, c2_gen3_invariants c2img 1 true c2img_parses⟩

/-- A successful `CodePartitionDirectory::new` records the offset it
was called with. -/
theorem cpd_new_offset (s : BSlice) (o : Nat) (d : CodePartitionDirectory)
    (h : CodePartitionDirectory.new s o = R.ok d) : d.offset = o := by
  unfold CodePartitionDirectory.new at h
  cases hh : readCPDHeader s <;> simp only [hh] at h
  · exact R.noConfusion h
  case some hd =>
    cases he : readCPDEntriesGo s (cpd_header_size hd)
        (List.range hd.entries) [] <;> simp only [he] at h
    · exact R.noConfusion h
    case some es =>
      injection h with h
      rw [← h]

/-- The pre-scan only appends: every directory in the accumulator is
in the final list. -/
theorem prescan_sub (data : BSlice) (l : List Nat)
    (acc res : List CodePartitionDirectory)
    (h : prescan_cpds data l acc = R.ok res) :
    ∀ d ∈ acc, d ∈ res := by
  induction l generalizing acc with
  | nil =>
    simp only [prescan_cpds] at h
    injection h with h
    rw [h]
    exact fun d hd => hd
  | cons o rest ih =>
    simp only [prescan_cpds] at h
    by_cases hm : data.bytesAt o 4 = cpdMagicBytes
    · rw [if_pos hm] at h
      cases hs : data.sliceFrom o <;> simp only [hs] at h
      · exact R.noConfusion h
      next sl =>
        cases hc : CodePartitionDirectory.new sl o <;> simp only [hc] at h
        case ok d' =>
          intro d hd
          exact ih (acc ++ [d']) h d (List.mem_append_left _ hd)
        all_goals exact R.noConfusion h
    · rw [if_neg hm] at h
      exact ih acc h

/-- Every scanned offset carrying the CPD magic contributes a
directory recorded at that offset. -/
theorem prescan_mem (data : BSlice) (l : List Nat)
    (acc res : List CodePartitionDirectory)
    (h : prescan_cpds data l acc = R.ok res) (o : Nat) (ho : o ∈ l)
    (hm : data.bytesAt o 4 = cpdMagicBytes) :
    ∃ d ∈ res, d.offset = o := by
  induction l generalizing acc with
  | nil => exact absurd ho (List.not_mem_nil o)
  | cons p rest ih =>
    simp only [prescan_cpds] at h
    rcases List.mem_cons.mp ho with hop | horest
    · subst hop
      rw [if_pos hm] at h
      cases hs : data.sliceFrom o <;> simp only [hs] at h
      · exact R.noConfusion h
      next sl =>
        cases hc : CodePartitionDirectory.new sl o <;> simp only [hc] at h
        case ok d' =>
          refine ⟨d', prescan_sub data rest (acc ++ [d']) res h d' ?_,
            cpd_new_offset sl o d' hc⟩
          exact List.mem_append_right _ (List.mem_singleton_self d')
        all_goals exact R.noConfusion h
    · by_cases hmp : data.bytesAt p 4 = cpdMagicBytes
      · rw [if_pos hmp] at h
        cases hs : data.sliceFrom p <;> simp only [hs] at h
        · exact R.noConfusion h
        next sl =>
          cases hc : CodePartitionDirectory.new sl p <;> simp only [hc] at h
          case ok d' => exact ih (acc ++ [d']) h horest
          all_goals exact R.noConfusion h
      · rw [if_neg hmp] at h
        exact ih acc h horest

/-- The dispatch loop only appends: every directory passed in is in
the final list. -/
theorem dispatch_sub (data : BSlice) (base : Nat) (es : List FPTEntry)
    (acc res : List CodePartitionDirectory)
    (h : dispatch_entries data base es acc = R.ok res) :
    ∀ d ∈ acc, d ∈ res := by
  induction es generalizing acc with
  | nil =>
    simp only [dispatch_entries] at h
    injection h with h
    rw [h]
    exact fun d hd => hd
  | cons e rest ih =>
    simp only [dispatch_entries] at h
    cases hd : dispatch_entry data base e with
    | ok od =>
      cases od with
      | none =>
        simp only [hd] at h
        exact ih acc h
      | some d' =>
        simp only [hd] at h
        intro d hdm
        exact ih (acc ++ [d']) h d (List.mem_append_left _ hdm)
    | err => simp only [hd] at h; exact R.noConfusion h
    | crash => simp only [hd] at h; exact R.noConfusion h
    | dvg => simp only [hd] at h; exact R.noConfusion h

/-- Arithmetic characterisation of the pre-scan offsets: every
positive multiple of 16 with 32 bytes of room after it is scanned. -/
theorem mem_prescanOffsets (len o : Nat) (ho : o % 16 = 0) (h0 : 0 < o)
    (hb : o + 32 ≤ len) : o ∈ prescanOffsets len := by
  unfold prescanOffsets
  have hdvd : 16 ∣ o := Nat.dvd_of_mod_eq_zero ho
  have h16 : 16 ≤ o := Nat.le_of_dvd h0 hdvd
  have hq : 16 * (o / 16) = o := Nat.mul_div_cancel' hdvd
  have hq1 : 1 ≤ o / 16 := by
    rcases Nat.eq_zero_or_pos (o / 16) with hz | hp
    · rw [hz] at hq; omega
    · exact hp
  refine List.mem_map.mpr ⟨o / 16 - 1, List.mem_range.mpr ?_, ?_⟩
  · have hom : o ≤ len - 32 := by omega
    have hle : o / 16 ≤ (len - 32) / 16 := Nat.div_le_div_right hom
    omega
  · have hs : o / 16 - 1 + 1 = o / 16 := by omega
    rw [hs, hq]

/-- Inversion of a successful `parse`: the FIT stage did not panic and
the FPT stage produced the result. -/
theorem parse_ok_inv (data : BSlice) (t : ME_FPT)
    (h : parse data = R.ok t) : parse_fpt data = R.ok t := by
  unfold parse at h
  cases hfit : Fit.new data <;> rw [hfit] at h
  · exact h
  · exact h
  · exact R.noConfusion h
  · exact R.noConfusion h

/-- Inversion of a successful FPT stage into its five steps. -/
theorem parse_fpt_ok_inv (data : BSlice) (t : ME_FPT)
    (h : parse_fpt data = R.ok t) :
    ∃ dirs0 b fpt entries dirs,
      prescan_cpds data (prescanOffsets data.len) [] = R.ok dirs0 ∧
      firstFptBase data = some b ∧
      readFPT data (b + 16) = some fpt ∧
      readFptEntriesGo data (b + 16) (List.range fpt.entries) [] =
        R.ok entries ∧
      dispatch_entries data (realign_base b) entries dirs0 =
        R.ok dirs ∧
      t = ⟨realign_base b, fpt, entries, dirs⟩ := by
  unfold parse_fpt at h
  cases hpre : prescan_cpds data (prescanOffsets data.len) [] <;>
    simp only [hpre] at h
  case ok dirs0 =>
    cases hfb : firstFptBase data <;> simp only [hfb] at h
    · exact R.noConfusion h
    case some b =>
      cases hf : readFPT data (b + 16) <;> simp only [hf] at h
      · exact R.noConfusion h
      case some fpt =>
        cases he : readFptEntriesGo data (b + 16)
            (List.range fpt.entries) [] <;> simp only [he] at h
        case ok entries =>
          cases hd : dispatch_entries data (realign_base b) entries
              dirs0 <;> simp only [hd] at h
          case ok dirs =>
            injection h with h
            exact ⟨dirs0, b, fpt, entries, dirs, rfl, rfl, hf, he, hd,
              h.symm⟩
          all_goals exact R.noConfusion h
        all_goals exact R.noConfusion h
  all_goals exact R.noConfusion h

/-- C1: the specification claims `parse` never panics for any input
byte sequence, but on the empty input `Fit::new` computes
`data.len() - 0x40`, which wraps in release builds, and the four-byte
slice at the wrapped position is out of bounds and panics; `parse`
calls `Fit::new` before anything else, so the whole parser panics
(modelled as `crash`). -/
theorem c1_parse_crashes_on_empty_input : parse emptyImg = R.crash := by
  decide

/-- C8: when the FPT magic is first found for candidate base
b = 0x20 (magic at 0x30), the re-align rule (0x20 is not 4 KiB
aligned) makes the returned partition base 0x30, and a partition entry
whose offset field is 0x40 resolves to image offset
0x30 + (0x40 and 0x3fffff) = 0x70. -/
theorem c8_realign_base (data : BSlice)
    (h1 : firstFptBase data = some 0x20)
    (h2 : (parse data).isOk = true) :
    parse_base (parse data) = 0x30 ∧
    ∀ e : FPTEntry, e.offset = 0x40 →
      entry_data_offset (parse_base (parse data)) e = 0x70 := by
  cases hp : parse data with
  | ok t =>
    obtain ⟨dirs0, b, fpt, entries, dirs, hpre, hfb, hf, he, hd, ht⟩ :=
      parse_fpt_ok_inv data t (parse_ok_inv data t hp)
    rw [h1] at hfb
    injection hfb with hb
    subst hb
    have hbase : t.base = 0x30 := by
      rw [ht]
      rfl
    constructor
    · simp only [parse_base]
      exact hbase
    · intro e hoe
      simp only [parse_base]
      rw [hbase]
      unfold entry_data_offset
      rw [hoe]
      decide
  | err => rw [hp] at h2; exact Bool.noConfusion h2
  | crash => rw [hp] at h2; exact Bool.noConfusion h2
  | dvg => rw [hp] at h2; exact Bool.noConfusion h2

/-- C8 witness: on the concrete image `c8img` the magic is first found
at base 0x20, parsing succeeds, the returned base is 0x30, and the
entry with offset field 0x40 resolves to 0x70. -/
theorem c8_witness :
    (firstFptBase c8img = some 0x20 ∧ (parse c8img).isOk = true) ∧
    (parse_base (parse c8img) = 0x30 ∧
      entry_data_offset (parse_base (parse c8img)) c8entry = 0x70) :=
  ⟨⟨by decide, by decide⟩,
    ⟨(c8_realign_base c8img (by decide) (by decide)).1,
      (c8_realign_base c8img (by decide) (by decide)).2 c8entry rfl⟩⟩

/-- C10: whatever the partition table contains, whenever `parse`
succeeds, every positive multiple of 16 with at least 32 bytes of room
whose four bytes are the CPD magic contributes a directory (recorded
at that offset) to the returned `directories` list, via the pre-scan
that runs before the FPT is examined. -/
theorem c10_prescan_cpds (data : BSlice) (o : Nat)
    (hok : (parse data).isOk = true)
    (ho : o % 16 = 0) (h0 : 0 < o) (hb : o + 32 ≤ data.len)
    (hm : data.bytesAt o 4 = cpdMagicBytes) :
    ∃ d ∈ parse_dirs (parse data), d.offset = o := by
  cases hp : parse data with
  | ok t =>
    obtain ⟨dirs0, b, fpt, entries, dirs, hpre, hfb, hf, he, hd, ht⟩ :=
      parse_fpt_ok_inv data t (parse_ok_inv data t hp)
    obtain ⟨d, hdmem, hdoff⟩ :=
      prescan_mem data (prescanOffsets data.len) [] dirs0 hpre o
        (mem_prescanOffsets data.len o ho h0 hb) hm
    refine ⟨d, ?_, hdoff⟩
    simp only [parse_dirs]
    rw [ht]
    exact dispatch_sub data (realign_base b) entries dirs0 dirs hd d hdmem
  | err => rw [hp] at hok; exact Bool.noConfusion hok
  | crash => rw [hp] at hok; exact Bool.noConfusion hok
  | dvg => rw [hp] at hok; exact Bool.noConfusion hok

/-- C10 witness: on the concrete image `c10img` the pre-scan finds the
CPD magic at offset 16 and the returned directories list contains a
directory recorded at offset 16. -/
theorem c10_witness :
    ((parse c10img).isOk = true ∧ 16 % 16 = 0 ∧ 0 < 16 ∧
      16 + 32 ≤ c10img.len ∧ c10img.bytesAt 16 4 = cpdMagicBytes) ∧
    ∃ d ∈ parse_dirs (parse c10img), d.offset = 16 :=
  ⟨⟨by decide, by decide, by decide, by decide, by decide⟩,
    c10_prescan_cpds c10img 16 (by decide) (by decide) (by decide)
      (by decide) (by decide)⟩
